import Mathlib

/-!
Shallow embedding of the Minesweeper AI reasoning core
(MainFiles/knowledge_statement.py, MainFiles/subset_search_algorithms.py,
MainFiles/safe_cell_data_structures.py, MainFiles/minesweeper_ai.py).

Modelling conventions:
* Python `set` of cell tuples becomes `Finset Cell`; structural equality of
  `KnowledgeStatement` (its `__eq__`/`__hash__`) is definitional equality of the
  Lean structure, which is order-independent exactly like `frozenset` hashing.
* Python `int` becomes `ℤ` (mine counts may go negative in inference results).
* In-place mutation is modelled by explicit state passing: functions return the
  updated object/state.
* Python iterates hash sets in an unspecified order.  Whenever the code loops
  over a set (marking the collected safe/mine cells), the embedding iterates in
  canonical sorted order; all set-valued components of the state are order
  independent, only the `safe_cell_queue` append order can differ from CPython's
  hash order, and no theorem below depends on that order.
* `StatGenerator` counters other than the duplicate counter returned by the
  purge are performance instrumentation and are not part of any claim; they are
  omitted from the state.
* Unbounded `while` loops are modelled with an explicit fuel parameter; the
  loop result is `none` when the fuel is exhausted before the loop's own exit
  condition fires.
-/

namespace Minesweeper

/-- A board cell, the Python pair of ints `(row, col)`. -/
abbrev Cell := ℤ × ℤ

/-- Canonical linear order on cells, used to iterate Python hash sets in a
deterministic order. -/
def cellLe (a b : Cell) : Prop := a.1 < b.1 ∨ (a.1 = b.1 ∧ a.2 ≤ b.2)

instance : DecidableRel cellLe := fun a b => by
  unfold cellLe; exact instDecidableOr

instance : IsTrans Cell cellLe := by
  refine ⟨fun a b c hab hbc => ?_⟩
  rcases hab with h | ⟨h1, h2⟩ <;> rcases hbc with h' | ⟨h1', h2'⟩ <;>
    unfold cellLe <;> omega

instance : IsAntisymm Cell cellLe := by
  refine ⟨fun a b hab hba => ?_⟩
  rcases hab with h | ⟨h1, h2⟩ <;> rcases hba with h' | ⟨h1', h2'⟩ <;>
    [skip; skip; skip; exact Prod.ext h1 (le_antisymm h2 h2')] <;> omega

instance : IsTotal Cell cellLe := by
  refine ⟨fun a b => ?_⟩
  unfold cellLe
  rcases lt_trichotomy a.1 b.1 with h | h | h
  · exact Or.inl (Or.inl h)
  · rcases le_total a.2 b.2 with h2 | h2
    · exact Or.inl (Or.inr ⟨h, h2⟩)
    · exact Or.inr (Or.inr ⟨h.symm, h2⟩)
  · exact Or.inr (Or.inl h)

/-- Enumerate a finite set of cells in the canonical order.  (Defined through
`Quot.liftOn` with a structurally recursive insertion sort so that the kernel
can evaluate it on concrete states; sorted permutations are unique, so the
lift is well defined.) -/
def cellSort (s : Finset Cell) : List Cell :=
  Quot.liftOn s.val (fun l => List.insertionSort cellLe l) (fun a b hab =>
    List.eq_of_perm_of_sorted
      ((List.perm_insertionSort cellLe a).trans
        (Quotient.exact (Quotient.sound hab) |>.trans
          (List.perm_insertionSort cellLe b).symm))
      (List.sorted_insertionSort cellLe a) (List.sorted_insertionSort cellLe b))

/-- `KnowledgeStatement` (knowledge_statement.py): a set of board cells and the
count of mines among them. -/
structure KnowledgeStatement where
  cell_positions : Finset Cell
  mine_count : ℤ
deriving DecidableEq

namespace KnowledgeStatement

/-- `known_mines` (knowledge_statement.py lines 59-67): all cells are mines iff
the count equals the number of cells. -/
def known_mines (s : KnowledgeStatement) : Finset Cell :=
  if (s.cell_positions.card : ℤ) = s.mine_count then s.cell_positions else ∅

/-- `known_safes` (knowledge_statement.py lines 69-77): all cells are safe iff
the count is zero. -/
def known_safes (s : KnowledgeStatement) : Finset Cell :=
  if s.mine_count = 0 then s.cell_positions else ∅

/-- `mark_cell_as_mine` (knowledge_statement.py lines 79-88): if the cell is
present, remove it and decrement the count; otherwise leave the statement
unchanged. -/
def mark_cell_as_mine (s : KnowledgeStatement) (c : Cell) : KnowledgeStatement :=
  if c ∈ s.cell_positions then
    ⟨s.cell_positions.erase c, s.mine_count - 1⟩
  else s

/-- `mark_cell_as_safe` (knowledge_statement.py lines 90-98): if the cell is
present, remove it without touching the count; otherwise leave the statement
unchanged. -/
def mark_cell_as_safe (s : KnowledgeStatement) (c : Cell) : KnowledgeStatement :=
  if c ∈ s.cell_positions then
    ⟨s.cell_positions.erase c, s.mine_count⟩
  else s

/-- The `__lt__` comparator (knowledge_statement.py lines 40-49): lexicographic
on `(number of cells, mine count)`. -/
def lt (a b : KnowledgeStatement) : Prop :=
  a.cell_positions.card < b.cell_positions.card ∨
    (a.cell_positions.card = b.cell_positions.card ∧ a.mine_count < b.mine_count)

instance : DecidableRel lt := fun a b => by unfold lt; exact instDecidableOr

end KnowledgeStatement

/-- Result of comparing a subset pair: `(B.cells - A.cells, B.count - A.count)`.
This is the expression built at every inference site of
subset_search_algorithms.py. -/
def derived (a b : KnowledgeStatement) : KnowledgeStatement :=
  ⟨b.cell_positions \ a.cell_positions, b.mine_count - a.mine_count⟩

/-- Python's `sorted` is a stable sort; a stable sort is uniquely determined by
its comparison, so we realise each `sorted(...)` call with `List.insertionSort`
(also stable) and the matching relation. -/
def pySorted (r : KnowledgeStatement → KnowledgeStatement → Prop) [DecidableRel r]
    (l : List KnowledgeStatement) : List KnowledgeStatement :=
  List.insertionSort r l

/-- Relation realising `sorted(kb)` (ascending, stable): keep `a` before `b`
unless `b < a`. -/
def ascLt (a b : KnowledgeStatement) : Prop := ¬ KnowledgeStatement.lt b a

instance : DecidableRel ascLt := fun _ _ => instDecidableNot

/-- Relation realising `sorted(kb, reverse=True)` (descending, stable): keep `a`
before `b` unless `a < b`. -/
def descLt (a b : KnowledgeStatement) : Prop := ¬ KnowledgeStatement.lt a b

instance : DecidableRel descLt := fun _ _ => instDecidableNot

instance : IsTotal KnowledgeStatement descLt :=
  ⟨fun a b => by unfold descLt KnowledgeStatement.lt; omega⟩

instance : IsTrans KnowledgeStatement descLt :=
  ⟨fun a b c hab hbc => by
    unfold descLt KnowledgeStatement.lt at hab hbc ⊢; omega⟩

/-- Relation realising `sorted(kb, key=lambda x: len(x.cells))` (ascending by
set size, stable). -/
def sizeAsc (a b : KnowledgeStatement) : Prop :=
  ¬ b.cell_positions.card < a.cell_positions.card

instance : DecidableRel sizeAsc := fun _ _ => instDecidableNot

instance : IsTotal KnowledgeStatement sizeAsc :=
  ⟨fun a b => by unfold sizeAsc; omega⟩

instance : IsTrans KnowledgeStatement sizeAsc :=
  ⟨fun a b c hab hbc => by unfold sizeAsc at hab hbc ⊢; omega⟩

/-- Relation realising `sorted(kb, key=lambda ks: -len(ks.cells))` (descending
by set size, stable). -/
def sizeDesc (a b : KnowledgeStatement) : Prop :=
  ¬ a.cell_positions.card < b.cell_positions.card

instance : DecidableRel sizeDesc := fun _ _ => instDecidableNot

/-- Relation for the spec's reading of the greedy mine-count sort: descending by
`mine_count` alone (stable).  Used only to compare the code against the claim's
wording. -/
def countDesc (a b : KnowledgeStatement) : Prop := ¬ a.mine_count < b.mine_count

instance : DecidableRel countDesc := fun _ _ => instDecidableNot

/-- Inner loop of `brute_force_search` (subset_search_algorithms.py lines
79-88): compare one statement against every statement of the knowledge base and
append each not-yet-seen derived statement.  The Python code keeps a list and a
set in lockstep; membership in either is the same, so a single list suffices. -/
def bfInner (st : KnowledgeStatement) (kb : List KnowledgeStatement)
    (acc : List KnowledgeStatement) : List KnowledgeStatement :=
  kb.foldl
    (fun acc other =>
      if st.cell_positions ⊆ other.cell_positions then
        (if derived st other ∈ acc then acc else acc ++ [derived st other])
      else acc)
    acc

/-- Core of `brute_force_search` (subset_search_algorithms.py lines 68-93):
every ordered pair of statements is compared; the de-duplicated list of derived
statements is returned.  (The subset-comparison counter only feeds the
`StatGenerator` and is omitted.) -/
def bruteForceCore (kb : List KnowledgeStatement) : List KnowledgeStatement :=
  kb.foldl (fun acc st => bfInner st kb acc) []

/-- `brute_force_search` as a strategy: it never mutates the passed list, so the
final store is the input store. -/
def brute_force_search (kb : List KnowledgeStatement) :
    List KnowledgeStatement × List KnowledgeStatement :=
  (kb, bruteForceCore kb)

/-- Inner loop of `greedy_algorithm_minecount_search` (subset_search_algorithms.py
lines 233-242): scan the statements after the current one in sorted order;
derive from subset pairs, de-duplicating against the accumulator, and stop at
the first non-subset pair (`break`). -/
def mcInner (cur : KnowledgeStatement) :
    List KnowledgeStatement → List KnowledgeStatement → List KnowledgeStatement
  | [], acc => acc
  | nxt :: rest, acc =>
    if nxt.cell_positions ⊆ cur.cell_positions then
      mcInner cur rest
        (if derived nxt cur ∈ acc then acc else acc ++ [derived nxt cur])
    else acc

/-- Outer loop of `greedy_algorithm_minecount_search`: for each statement of the
sorted list, scan the statements after it. -/
def mcOuter : List KnowledgeStatement → List KnowledgeStatement → List KnowledgeStatement
  | [], acc => acc
  | cur :: rest, acc => mcOuter rest (mcInner cur rest acc)

/-- `greedy_algorithm_minecount_search` (subset_search_algorithms.py lines
220-247): sort with `sorted(kb, reverse=True)` — i.e. descending under the
`__lt__` comparator `(len(cells), mine_count)` — then run the early-exit
scan.  The input list is never mutated. -/
def greedy_algorithm_minecount_search (kb : List KnowledgeStatement) :
    List KnowledgeStatement × List KnowledgeStatement :=
  (kb, mcOuter (pySorted descLt kb) [])

/-- The greedy mine-count strategy as the claim words it: identical scan, but
the sort key is `mine_count` alone (descending, stable).  This definition
follows the spec's words, not the code; it exists to compare the two. -/
def greedyMinecountSpecSort (kb : List KnowledgeStatement) : List KnowledgeStatement :=
  mcOuter (pySorted countDesc kb) []

/-- One step of `remove_empty_and_duplicate_statements` (minesweeper_ai.py lines
61-81).  `seen` plays the role of `original_set` (initially `set(kb)`), `acc`
the role of `cleaned_knowledge_base`, `d` the duplicate counter: empty
statements are dropped silently; a non-empty statement still in `seen` is kept
and removed from `seen`; otherwise it is a structural duplicate and counted. -/
def purgeAux : List KnowledgeStatement → Finset KnowledgeStatement →
    List KnowledgeStatement → ℕ → List KnowledgeStatement × ℕ
  | [], _, acc, d => (acc, d)
  | s :: rest, seen, acc, d =>
    if s.cell_positions = ∅ then purgeAux rest seen acc d
    else if s ∈ seen then purgeAux rest (seen.erase s) (acc ++ [s]) d
    else purgeAux rest seen acc (d + 1)

/-- `remove_empty_and_duplicate_statements`, acting on the knowledge-base list:
returns the cleaned list and the duplicate count reported to the
`StatGenerator`. -/
def purgeList (kb : List KnowledgeStatement) : List KnowledgeStatement × ℕ :=
  purgeAux kb kb.toFinset [] 0

/-- Keep the first occurrence of each statement, skipping the ones already in
`seen`.  Auxiliary for the specification-side description of the purge. -/
def keepFirsts (seen : Finset KnowledgeStatement) :
    List KnowledgeStatement → List KnowledgeStatement
  | [] => []
  | s :: rest => if s ∈ seen then keepFirsts seen rest else s :: keepFirsts (insert s seen) rest

/-- Specification-side description of the purge: drop empty statements, then
keep only the first occurrence of each remaining statement. -/
def dedupFirst (kb : List KnowledgeStatement) : List KnowledgeStatement :=
  keepFirsts ∅ (kb.filter (fun s => ¬ s.cell_positions = ∅))

/-- Merge step of `divide_and_conquer_search` (subset_search_algorithms.py lines
117-132): start from `left ++ right`, then cross-compare the two halves'
results, appending derived statements that are not already in the merged
list. -/
def dncMerge (left right : List KnowledgeStatement) : List KnowledgeStatement :=
  left.foldl
    (fun acc l =>
      right.foldl
        (fun acc r =>
          if l.cell_positions ⊆ r.cell_positions then
            (if derived l r ∈ acc then acc else acc ++ [derived l r])
          else acc)
        acc)
    (left ++ right)

/-- Recursion of `divide_and_conquer_search` (subset_search_algorithms.py lines
106-132), on the sublist `kb[start..end]` directly.  Python recurses on index
halves; a fuel parameter at least the list length makes the recursion
structural (each half is strictly shorter, see `dncGo_fuel`). -/
def dncGo : ℕ → List KnowledgeStatement → List KnowledgeStatement
  | _, [] => []
  | _, [s] => [s]
  | 0, _ => []
  | f + 1, kb =>
    let mid := (kb.length - 1) / 2
    dncMerge (dncGo f (kb.take (mid + 1))) (dncGo f (kb.drop (mid + 1)))

/-- `divide_and_conquer_search` (subset_search_algorithms.py lines 95-139).  The
input list is never mutated, so the store is returned unchanged. -/
def divide_and_conquer_search (kb : List KnowledgeStatement) :
    List KnowledgeStatement × List KnowledgeStatement :=
  (kb, dncGo kb.length kb)

/-- Inner loop of `dynamic_programming_search` (subset_search_algorithms.py
lines 155-178), threading the memo cache and the inferred list. -/
def dpInner (st : KnowledgeStatement) :
    List KnowledgeStatement → Finset (KnowledgeStatement × KnowledgeStatement) →
    List KnowledgeStatement →
    Finset (KnowledgeStatement × KnowledgeStatement) × List KnowledgeStatement
  | [], cache, inf => (cache, inf)
  | other :: rest, cache, inf =>
    if (st, other) ∈ cache then dpInner st rest cache inf
    else if st.cell_positions ⊆ other.cell_positions then
      let s := derived st other
      if s.mine_count < 0 ∨ s.cell_positions = ∅ then dpInner st rest cache inf
      else
        let cache1 := insert (st, other) cache
        if s ∈ inf then dpInner st rest cache1 inf
        else
          let cache2 :=
            if 1 < s.cell_positions.card then insert (s, st) cache1 else cache1
          dpInner st rest cache2 (inf ++ [s])
    else dpInner st rest cache inf

/-- Outer loop of `dynamic_programming_search`: each statement of the sorted
list is compared against the statements after it. -/
def dpOuter : List KnowledgeStatement →
    Finset (KnowledgeStatement × KnowledgeStatement) → List KnowledgeStatement →
    Finset (KnowledgeStatement × KnowledgeStatement) × List KnowledgeStatement
  | [], cache, inf => (cache, inf)
  | st :: rest, cache, inf =>
    let p := dpInner st rest cache inf
    dpOuter rest p.1 p.2

/-- `dynamic_programming_search` (subset_search_algorithms.py lines 141-183):
sort ascending with `__lt__`, memoize visited pairs, reject negative-count or
empty results.  The input list is never mutated. -/
def dynamic_programming_search (kb : List KnowledgeStatement) :
    List KnowledgeStatement × List KnowledgeStatement :=
  (kb, (dpOuter (pySorted ascLt kb) ∅ []).2)

/-- Inner loop of `greedy_algorithm_size_search` (subset_search_algorithms.py
lines 198-211): scan the statements after position `i` in the current sorted
list, breaking as soon as a candidate's size reaches the current statement's
size; derived statements are appended both to the inferred accumulator and to
the caller's knowledge-base list (the code's in-place `knowledge_base.append`).
Returns the (possibly extended) knowledge base and the inferred list. -/
def gsInner (cur : KnowledgeStatement) :
    List KnowledgeStatement → List KnowledgeStatement → List KnowledgeStatement →
    List KnowledgeStatement × List KnowledgeStatement
  | [], kb, inf => (kb, inf)
  | nxt :: rest, kb, inf =>
    if cur.cell_positions.card ≤ nxt.cell_positions.card then (kb, inf)
    else if nxt.cell_positions ⊆ cur.cell_positions then
      let s := derived nxt cur
      if s ∈ inf then gsInner cur rest kb inf
      else gsInner cur rest (kb ++ [s]) (inf ++ [s])
    else gsInner cur rest kb inf

/-- Outer loop of `greedy_algorithm_size_search` (subset_search_algorithms.py
lines 197-213).  Python's `for i, cur in enumerate(sorted_knowledge_base)`
iterates over the list object produced before the loop, while the inner slice
`sorted_knowledge_base[i+1:]` reads the latest re-sorted binding; the embedding
threads both: `s0rest` walks the frozen enumeration, `scur` is the latest
binding, re-sorted from the current knowledge base after each outer step. -/
def gsOuter : List KnowledgeStatement → ℕ → List KnowledgeStatement →
    List KnowledgeStatement → List KnowledgeStatement →
    List KnowledgeStatement × List KnowledgeStatement
  | [], _, _, kb, inf => (kb, inf)
  | cur :: rest0, i, scur, kb, inf =>
    let p := gsInner cur (scur.drop (i + 1)) kb inf
    gsOuter rest0 (i + 1) (pySorted sizeAsc p.1) p.1 p.2

/-- `greedy_algorithm_size_search` (subset_search_algorithms.py lines 185-218):
sort ascending by set size and scan with the size-crossover break.  This is the
one strategy whose code appends to the caller's list, so the returned store is
the threaded knowledge base.  (Python returns `list(inferred_statements)` from
a hash set; the theorems below show the set is always empty, so the list order
is immaterial.) -/
def greedy_algorithm_size_search (kb : List KnowledgeStatement) :
    List KnowledgeStatement × List KnowledgeStatement :=
  let s0 := pySorted sizeAsc kb
  gsOuter s0 0 s0 kb []

/-- Strict lexicographic order on cells. -/
def cellLt (a b : Cell) : Prop := a.1 < b.1 ∨ (a.1 = b.1 ∧ a.2 < b.2)

instance : DecidableRel cellLt := fun a b => by
  unfold cellLt; exact instDecidableOr

/-- Lexicographic comparison of cell lists, as Python compares tuples of
tuples (a proper prefix is smaller). -/
def listCellLe : List Cell → List Cell → Prop
  | [], _ => True
  | _ :: _, [] => False
  | a :: as, b :: bs => cellLt a b ∨ (a = b ∧ listCellLe as bs)

instance : ∀ l1 l2, Decidable (listCellLe l1 l2)
  | [], _ => .isTrue trivial
  | _ :: _, [] => .isFalse id
  | a :: as, b :: bs =>
    have : Decidable (listCellLe as bs) := instDecidableListCellLe as bs
    instDecidableOr

/-- Canonical key of a knowledge-base snapshot, Python's
`tuple(sorted(tuple(ks.get_cell_positions()) for ks in current_kb))` (bfs/dfs
visited sets).  Python dumps each hash set into a tuple in unspecified order;
the embedding canonicalises the inner tuples by sorting them, which identifies
at least as many snapshots. -/
def kbKeyOf (kb : List KnowledgeStatement) : List (List Cell) :=
  List.insertionSort listCellLe (kb.map (fun ks => cellSort ks.cell_positions))

/-- Pair scan of one bfs node (subset_search_algorithms.py lines 275-287):
`st` against each later statement; novel inferences are recorded and spawn a
child snapshot `kbase ++ [new]`. -/
def bfsInner (kbase : List KnowledgeStatement) (st : KnowledgeStatement) :
    List KnowledgeStatement → List KnowledgeStatement →
    List (List KnowledgeStatement) →
    List KnowledgeStatement × List (List KnowledgeStatement)
  | [], inf, nodes => (inf, nodes)
  | other :: rest, inf, nodes =>
    if st.cell_positions ⊆ other.cell_positions then
      let s := derived st other
      if s ∈ inf then bfsInner kbase st rest inf nodes
      else bfsInner kbase st rest (inf ++ [s]) (nodes ++ [kbase ++ [s]])
    else bfsInner kbase st rest inf nodes

/-- All ordered pairs `i < j` of one bfs node. -/
def bfsPairs (kbase : List KnowledgeStatement) :
    List KnowledgeStatement → List KnowledgeStatement →
    List (List KnowledgeStatement) →
    List KnowledgeStatement × List (List KnowledgeStatement)
  | [], inf, nodes => (inf, nodes)
  | st :: rest, inf, nodes =>
    let p := bfsInner kbase st rest inf nodes
    bfsPairs kbase rest p.1 p.2

/-- Queue-driven loop of `bfs_search` (subset_search_algorithms.py lines
265-287), with fuel for the unbounded search. -/
def bfsLoop : ℕ → List (List KnowledgeStatement) → List (List (List Cell)) →
    List KnowledgeStatement → List KnowledgeStatement
  | 0, _, _, inf => inf
  | _ + 1, [], _, inf => inf
  | f + 1, kb :: qrest, visited, inf =>
    if kbKeyOf kb ∈ visited then bfsLoop f qrest visited inf
    else
      let p := bfsPairs kb kb inf []
      bfsLoop f (qrest ++ p.2) (visited ++ [kbKeyOf kb]) p.1

/-- `bfs_search` (subset_search_algorithms.py lines 249-292): explore snapshots
in arrival order starting from the size-ascending sorted list.  The input list
is never mutated. -/
def bfs_search (fuel : ℕ) (kb : List KnowledgeStatement) :
    List KnowledgeStatement × List KnowledgeStatement :=
  (kb, bfsLoop fuel [pySorted sizeAsc kb] [] [])

/-- Pair scan of one dfs node (subset_search_algorithms.py lines 320-334); the
dfs variant additionally rejects negative-count or empty-cell results. -/
def dfsInner (kbase : List KnowledgeStatement) (st : KnowledgeStatement) :
    List KnowledgeStatement → List KnowledgeStatement →
    List (List KnowledgeStatement) →
    List KnowledgeStatement × List (List KnowledgeStatement)
  | [], inf, nodes => (inf, nodes)
  | other :: rest, inf, nodes =>
    if st.cell_positions ⊆ other.cell_positions then
      let s := derived st other
      if 0 ≤ s.mine_count ∧ ¬ s.cell_positions = ∅ then
        if s ∈ inf then dfsInner kbase st rest inf nodes
        else dfsInner kbase st rest (inf ++ [s]) (nodes ++ [kbase ++ [s]])
      else dfsInner kbase st rest inf nodes
    else dfsInner kbase st rest inf nodes

/-- All ordered pairs `i < j` of one dfs node. -/
def dfsPairs (kbase : List KnowledgeStatement) :
    List KnowledgeStatement → List KnowledgeStatement →
    List (List KnowledgeStatement) →
    List KnowledgeStatement × List (List KnowledgeStatement)
  | [], inf, nodes => (inf, nodes)
  | st :: rest, inf, nodes =>
    let p := dfsInner kbase st rest inf nodes
    dfsPairs kbase rest p.1 p.2

/-- Stack-driven loop of `dfs_search` (subset_search_algorithms.py lines
310-334).  Python pushes children with `append` and pops from the end; the
embedding keeps the stack top at the head, so freshly produced children are
pushed reversed. -/
def dfsLoop : ℕ → List (List KnowledgeStatement) → List (List (List Cell)) →
    List KnowledgeStatement → List KnowledgeStatement
  | 0, _, _, inf => inf
  | _ + 1, [], _, inf => inf
  | f + 1, kb :: srest, visited, inf =>
    if kbKeyOf kb ∈ visited then dfsLoop f srest visited inf
    else
      let p := dfsPairs kb kb inf []
      dfsLoop f (p.2.reverse ++ srest) (visited ++ [kbKeyOf kb]) p.1

/-- `dfs_search` (subset_search_algorithms.py lines 294-339): explore snapshots
in reverse arrival order starting from the size-descending sorted list.  The
input list is never mutated. -/
def dfs_search (fuel : ℕ) (kb : List KnowledgeStatement) :
    List KnowledgeStatement × List KnowledgeStatement :=
  (kb, dfsLoop fuel [pySorted sizeDesc kb] [] [])

/-- The seven strategy identifiers of `SubsetSearchAlgorithms.algorithms`
(subset_search_algorithms.py lines 45-53). -/
inductive AlgorithmName where
  | brute_force
  | divide_and_conquer
  | dynamic_programming
  | greedy_algorithm_size
  | greedy_algorithm_minecount
  | bfs
  | dfs
deriving DecidableEq

/-- The string-keyed dispatch table `self.algorithms` of
subset_search_algorithms.py lines 45-53 (values are the bound methods; here the
identifiers naming them). -/
def algorithms : List (String × AlgorithmName) :=
  [("brute_force", .brute_force),
   ("divide_and_conquer", .divide_and_conquer),
   ("dynamic_programming", .dynamic_programming),
   ("greedy_algorithm_size", .greedy_algorithm_size),
   ("greedy_algorithm_minecount", .greedy_algorithm_minecount),
   ("bfs", .bfs),
   ("dfs", .dfs)]

/-- `select_algorithm` (subset_search_algorithms.py lines 55-66): dictionary
lookup; on a miss, print an error (the returned flag) and fall back to
`brute_force_search`. -/
def select_algorithm (algorithm_name : String) : AlgorithmName × Bool :=
  match algorithms.lookup algorithm_name with
  | some a => (a, false)
  | none => (.brute_force, true)

/-- The four safe-cell policy identifiers of `SafeCellDataStructures.strategies`
(safe_cell_data_structures.py lines 13-18). -/
inductive StrategyName where
  | fifo
  | lifo
  | sorted_by_position
  | random
deriving DecidableEq

/-- The string-keyed dispatch table `self.strategies` of
safe_cell_data_structures.py lines 13-18. -/
def strategies : List (String × StrategyName) :=
  [("First In, First Out", .fifo),
   ("Last In, First Out", .lifo),
   ("Sorted by position", .sorted_by_position),
   ("Random", .random)]

/-- `select_strategy` (safe_cell_data_structures.py lines 20-31): dictionary
lookup; on a miss, print an error (the returned flag) and fall back to
`select_fifo`. -/
def select_strategy (strategy_name : String) : StrategyName × Bool :=
  match strategies.lookup strategy_name with
  | some s => (s, false)
  | none => (.fifo, true)

/-- `select_fifo` (safe_cell_data_structures.py lines 33-42): pop the oldest
cell, or report none when the queue is empty. -/
def select_fifo : List Cell → Option (Cell × List Cell)
  | [] => none
  | c :: rest => some (c, rest)

/-- `select_lifo` (safe_cell_data_structures.py lines 44-53): pop the newest
cell. -/
def select_lifo (q : List Cell) : Option (Cell × List Cell) :=
  match q.reverse with
  | [] => none
  | c :: rest => some (c, rest.reverse)

/-- `select_sorted` (safe_cell_data_structures.py lines 55-67): take the
lexicographically smallest cell and remove its first occurrence from the
queue. -/
def select_sorted (q : List Cell) : Option (Cell × List Cell) :=
  match List.insertionSort cellLe q with
  | [] => none
  | c :: _ => some (c, q.erase c)

/-- `select_random` (safe_cell_data_structures.py lines 69-80): `random.choice`
then remove the first occurrence.  The random draw is modelled by an explicit
index (the policy is required to be seedable), reduced modulo the queue
length. -/
def select_random (n : ℕ) : List Cell → Option (Cell × List Cell)
  | [] => none
  | c :: rest =>
    let pick := (c :: rest).get ⟨n % (c :: rest).length, Nat.mod_lt n (Nat.succ_pos rest.length)⟩
    some (pick, (c :: rest).erase pick)

/-- A subset-inference strategy, as the Propagation Engine sees it: it receives
the knowledge-base list and yields the (possibly mutated, for
`greedy_algorithm_size_search`) list together with the inferred statements. -/
abbrev Strategy :=
  List KnowledgeStatement → List KnowledgeStatement × List KnowledgeStatement

/-- The global solver state of `MinesweeperAI` (minesweeper_ai.py lines
23-28). -/
structure AIState where
  grid_size : ℤ
  moves_made : Finset Cell
  identified_mines : Finset Cell
  identified_safe_cells : Finset Cell
  safe_cell_queue : List Cell
  knowledge_base : List KnowledgeStatement
deriving DecidableEq

/-- The freshly constructed solver (minesweeper_ai.py lines 23-28). -/
def initState (g : ℤ) : AIState :=
  ⟨g, ∅, ∅, ∅, [], []⟩

/-- `MinesweeperAI.mark_cell_as_mine` (minesweeper_ai.py lines 39-47): record
the mine and cascade into every statement. -/
def aiMarkMine (st : AIState) (c : Cell) : AIState :=
  { st with
    identified_mines := insert c st.identified_mines,
    knowledge_base := st.knowledge_base.map (fun s => s.mark_cell_as_mine c) }

/-- `MinesweeperAI.mark_cell_as_safe` (minesweeper_ai.py lines 49-59): record
the safe cell — appending it to the queue only when newly identified — and
cascade into every statement. -/
def aiMarkSafe (st : AIState) (c : Cell) : AIState :=
  let st1 :=
    if c ∈ st.identified_safe_cells then st
    else
      { st with
        identified_safe_cells := insert c st.identified_safe_cells,
        safe_cell_queue := st.safe_cell_queue ++ [c] }
  { st1 with
    knowledge_base := st1.knowledge_base.map (fun s => s.mark_cell_as_safe c) }

/-- Union of `known_safes()` across the knowledge base (minesweeper_ai.py lines
124-128). -/
def collectSafes (kb : List KnowledgeStatement) : Finset Cell :=
  kb.foldl (fun acc s => acc ∪ s.known_safes) ∅

/-- Union of `known_mines()` across the knowledge base (minesweeper_ai.py lines
124-129). -/
def collectMines (kb : List KnowledgeStatement) : Finset Cell :=
  kb.foldl (fun acc s => acc ∪ s.known_mines) ∅

/-- One pass of the fixed-point loop of `add_knowledge` (minesweeper_ai.py
lines 117-148): collect certain cells, mark them (safes first, then mines),
purge, run the selected strategy, and append the structurally novel inferences.
Returns the new state, the grown seen-set (`inferred_set`) and the
`knowledge_changed` flag. -/
def passStep (strat : Strategy) (st : AIState)
    (inferred : Finset KnowledgeStatement) :
    AIState × Finset KnowledgeStatement × Bool :=
  let toSafe := collectSafes st.knowledge_base
  let toMine := collectMines st.knowledge_base
  let changed1 : Bool := if toSafe = ∅ ∧ toMine = ∅ then false else true
  let st1 := (cellSort toSafe).foldl aiMarkSafe st
  let st2 := (cellSort toMine).foldl aiMarkMine st1
  let st3 := { st2 with knowledge_base := (purgeList st2.knowledge_base).1 }
  let p := strat st3.knowledge_base
  let novel := p.2.filter (fun s => ¬ s ∈ inferred)
  let changed2 : Bool := if novel = [] then false else true
  ({ st3 with knowledge_base := p.1 ++ novel },
   inferred ∪ novel.toFinset, changed1 || changed2)

/-- The `while knowledge_changed` loop of `add_knowledge` (minesweeper_ai.py
lines 113-148), with fuel: `none` means the fuel ran out before a pass reported
no change. -/
def propLoop (strat : Strategy) :
    ℕ → AIState → Finset KnowledgeStatement → Option AIState
  | 0, _, _ => none
  | f + 1, st, inferred =>
    let p := passStep strat st inferred
    if p.2.2 then propLoop strat f p.1 p.2.1 else some p.1

/-- The grid-bounded 8-neighbourhood of a cell (minesweeper_ai.py lines
95-100). -/
def neighbourhood (g : ℤ) (c : Cell) : Finset Cell :=
  (([(-1, -1), (-1, 0), (-1, 1), (0, -1), (0, 1), (1, -1), (1, 0), (1, 1)] :
      List Cell).map (fun d => (c.1 + d.1, c.2 + d.2))).toFinset.filter
    (fun p => 0 ≤ p.1 ∧ p.1 < g ∧ 0 ≤ p.2 ∧ p.2 < g)

/-- `MinesweeperAI.add_knowledge` (minesweeper_ai.py lines 83-150): record the
move, mark the observed cell safe, build the adjusted neighbourhood constraint,
seed `inferred_set` with the current store, and run the fixed-point loop. -/
def add_knowledge (strat : Strategy) (fuel : ℕ) (st : AIState) (c : Cell)
    (surrounding_mines_count : ℤ) : Option AIState :=
  let st1 := { st with moves_made := insert c st.moves_made }
  let st2 := aiMarkSafe st1 c
  let nb1 := neighbourhood st2.grid_size c \ st2.identified_safe_cells
  let k' := surrounding_mines_count - ((nb1 ∩ st2.identified_mines).card : ℤ)
  let nb2 := nb1 \ st2.identified_mines
  let st3 :=
    if ¬ nb2 = ∅ then
      { st2 with knowledge_base := st2.knowledge_base ++ [⟨nb2, k'⟩] }
    else st2
  propLoop strat fuel st3 st3.knowledge_base.toFinset

/-- The brute-force strategy in the engine's strategy slot (the construction
default after an unknown key, cf. `select_algorithm`). -/
def bruteStrategy : Strategy := brute_force_search

/-- A concrete observation sequence on a 3×3 grid: reveal `(0,0)` with count 5,
`(0,2)` with count 7, then `(1,2)` with count 11 (counts inconsistent with any
real board, which `add_knowledge` does not validate). -/
def obsChain3 : Option AIState :=
  (((add_knowledge bruteStrategy 10 (initState 3) ((0 : ℤ), (0 : ℤ)) 5).bind
      (fun s => add_knowledge bruteStrategy 10 s ((0 : ℤ), (2 : ℤ)) 7)).bind
    (fun s => add_knowledge bruteStrategy 10 s ((1 : ℤ), (2 : ℤ)) 11))

/-- The solver state reached by `obsChain3` (each of the three calls terminates
well within fuel 10), written out literally. -/
def divergenceState : AIState where
  grid_size := 3
  moves_made := {((0 : ℤ), (0 : ℤ)), ((0 : ℤ), (2 : ℤ)), ((1 : ℤ), (2 : ℤ))}
  identified_mines := ∅
  identified_safe_cells := {((0 : ℤ), (0 : ℤ)), ((0 : ℤ), (2 : ℤ)), ((1 : ℤ), (2 : ℤ))}
  safe_cell_queue := [((0 : ℤ), (0 : ℤ)), ((0 : ℤ), (2 : ℤ)), ((1 : ℤ), (2 : ℤ))]
  knowledge_base :=
    [⟨{((0 : ℤ), (1 : ℤ)), ((1 : ℤ), (0 : ℤ)), ((1 : ℤ), (1 : ℤ))}, 5⟩,
     ⟨{((0 : ℤ), (1 : ℤ)), ((1 : ℤ), (1 : ℤ))}, 7⟩,
     ⟨{((0 : ℤ), (1 : ℤ)), ((1 : ℤ), (1 : ℤ)), ((2 : ℤ), (1 : ℤ)), ((2 : ℤ), (2 : ℤ))}, 11⟩,
     ⟨{((1 : ℤ), (0 : ℤ))}, -2⟩,
     ⟨{((2 : ℤ), (1 : ℤ)), ((2 : ℤ), (2 : ℤ))}, 4⟩]

/-- The queue invariant under scrutiny in the safe-cell-queue claims: every
queued cell is an identified safe cell, and no cell is queued twice. -/
def QInv (s : AIState) : Prop :=
  (∀ c ∈ s.safe_cell_queue, c ∈ s.identified_safe_cells) ∧ s.safe_cell_queue.Nodup

/-- Solver states reachable from a fresh solver by ingesting observations
(`add_knowledge`, with any fuel that lets the propagation loop finish) and by
popping safe moves with any of the four policies (`make_safe_move` mutates only
the queue; the chosen cell is handed to the caller). -/
inductive Reachable (strat : Strategy) : AIState → Prop where
  | init (g : ℤ) : Reachable strat (initState g)
  | ingest {s s' : AIState} {c : Cell} {k : ℤ} {fuel : ℕ} :
      Reachable strat s → add_knowledge strat fuel s c k = some s' →
      Reachable strat s'
  | pop_fifo {s : AIState} {c : Cell} {q' : List Cell} :
      Reachable strat s → select_fifo s.safe_cell_queue = some (c, q') →
      Reachable strat { s with safe_cell_queue := q' }
  | pop_lifo {s : AIState} {c : Cell} {q' : List Cell} :
      Reachable strat s → select_lifo s.safe_cell_queue = some (c, q') →
      Reachable strat { s with safe_cell_queue := q' }
  | pop_sorted {s : AIState} {c : Cell} {q' : List Cell} :
      Reachable strat s → select_sorted s.safe_cell_queue = some (c, q') →
      Reachable strat { s with safe_cell_queue := q' }
  | pop_random {s : AIState} {n : ℕ} {c : Cell} {q' : List Cell} :
      Reachable strat s → select_random n s.safe_cell_queue = some (c, q') →
      Reachable strat { s with safe_cell_queue := q' }

/-- Cell sets of the five constraint shapes that circulate in the divergence
scenario: after `obsChain3` the store only ever contains statements over these
sets (or the empty set). -/
def uSet : Finset Cell := {((1 : ℤ), (0 : ℤ))}

/-- The two-cell set `{(0,1),(1,1)}` of the divergence scenario. -/
def dSet : Finset Cell := {((0 : ℤ), (1 : ℤ)), ((1 : ℤ), (1 : ℤ))}

/-- The two-cell set `{(2,1),(2,2)}` of the divergence scenario. -/
def eSet : Finset Cell := {((2 : ℤ), (1 : ℤ)), ((2 : ℤ), (2 : ℤ))}

/-- The three-cell set `{(0,1),(1,0),(1,1)}` of the divergence scenario. -/
def sSet : Finset Cell := {((0 : ℤ), (1 : ℤ)), ((1 : ℤ), (0 : ℤ)), ((1 : ℤ), (1 : ℤ))}

/-- The four-cell set `{(0,1),(1,1),(2,1),(2,2)}` of the divergence scenario. -/
def qSet : Finset Cell :=
  {((0 : ℤ), (1 : ℤ)), ((1 : ℤ), (1 : ℤ)), ((2 : ℤ), (1 : ℤ)), ((2 : ℤ), (2 : ℤ))}

/-- Shape constraint satisfied by every statement that can ever appear during
the diverging ingestion: its cells are one of the five scenario sets (or
empty), and its count lies in a residue class mod 10 that keeps `known_safes`
and `known_mines` empty forever. -/
def okStmt (v : KnowledgeStatement) : Prop :=
  (v.cell_positions = uSet ∧ v.mine_count % 10 = 8) ∨
  (v.cell_positions = dSet ∧ v.mine_count % 10 = 7) ∨
  (v.cell_positions = eSet ∧ v.mine_count % 10 = 4) ∨
  (v.cell_positions = sSet ∧ (v.mine_count = 5 ∨ v.mine_count = 15)) ∨
  (v.cell_positions = qSet ∧ v.mine_count = 11) ∨
  v.cell_positions = ∅

instance : DecidablePred okStmt := fun v => by
  unfold okStmt
  infer_instance

/-- Invariant of the diverging fixed-point loop: the store still holds the two
conflicting `sSet` constraints, an extremal `uSet` statement (count `xm`) and an
extremal `dSet` statement (count `ym`); every statement ever seen respects the
`okStmt` shape and the `xm`/`ym`/`6+xm` bounds; and `xm + ym` alternates
between 5 and 15.  Each pass then derives either `(uSet, 15 − ym)` or
`(dSet, 5 − xm)` as a structurally novel statement, so `knowledge_changed`
never falls. -/
def INV (st : AIState) (inferred : Finset KnowledgeStatement) : Prop :=
  ∃ xm ym : ℤ,
    xm % 10 = 8 ∧ ym % 10 = 7 ∧ (xm + ym = 5 ∨ xm + ym = 15) ∧
    (⟨sSet, 5⟩ : KnowledgeStatement) ∈ st.knowledge_base ∧
    (⟨sSet, 15⟩ : KnowledgeStatement) ∈ st.knowledge_base ∧
    (⟨uSet, xm⟩ : KnowledgeStatement) ∈ st.knowledge_base ∧
    (⟨dSet, ym⟩ : KnowledgeStatement) ∈ st.knowledge_base ∧
    (∀ v ∈ st.knowledge_base, v ∈ inferred) ∧
    (∀ v ∈ inferred, okStmt v) ∧
    (∀ v ∈ inferred, v.cell_positions = uSet → v.mine_count ≤ xm) ∧
    (∀ v ∈ inferred, v.cell_positions = dSet → ym ≤ v.mine_count) ∧
    (∀ v ∈ inferred, v.cell_positions = eSet → v.mine_count ≤ 6 + xm)

/-- Duplicate-counting companion of `keepFirsts`: how many non-empty
occurrences are dropped because their value was already taken. -/
def purgeSpec (taken : Finset KnowledgeStatement) :
    List KnowledgeStatement → List KnowledgeStatement × ℕ
  | [] => ([], 0)
  | s :: rest =>
    if s.cell_positions = ∅ then purgeSpec taken rest
    else if s ∈ taken then
      let p := purgeSpec taken rest
      (p.1, p.2 + 1)
    else
      let p := purgeSpec (insert s taken) rest
      (s :: p.1, p.2)

/-- All cells mentioned by some statement of a store. -/
def kbCells (kb : List KnowledgeStatement) : Finset Cell :=
  kb.foldl (fun acc v => acc ∪ v.cell_positions) ∅

/-- Separation invariant of the solver: no statement of the store mentions an
already identified (mine or safe) cell.  `mark_cell_as_mine` /
`mark_cell_as_safe` strip every marked cell out of every statement, so the
engine maintains this throughout. -/
def DisjointKB (st : AIState) : Prop :=
  ∀ v ∈ st.knowledge_base, ∀ x ∈ v.cell_positions,
    ¬ x ∈ st.identified_mines ∧ ¬ x ∈ st.identified_safe_cells

/-- Invariant tying `inferred_set` to the state: everything ever recorded as
seen is either still in the store, or mentions an identified cell (it was
consumed by marking), or is an empty statement (purged on sight). -/
def JInv (st : AIState) (inferred : Finset KnowledgeStatement) : Prop :=
  ∀ x ∈ inferred,
    x ∈ st.knowledge_base ∨
    (∃ cl ∈ x.cell_positions, cl ∈ st.identified_mines ∨ cl ∈ st.identified_safe_cells) ∨
    x.cell_positions = ∅

/-- The constraint that a fresh `add_knowledge (c, k)` call would build in the
state `st`: the neighbourhood minus the identified safes and mines, with the
count adjusted by the identified mines among the remaining neighbours. -/
def ghostVal (nb : Finset Cell) (k : ℤ) (st : AIState) : KnowledgeStatement :=
  ⟨(nb \ st.identified_safe_cells) \ st.identified_mines,
   k - (((nb \ st.identified_safe_cells) ∩ st.identified_mines).card : ℤ)⟩

/-- The ghost constraint is tracked by the store: either it is literally one of
the statements, or it has become empty. -/
def GhostInv (nb : Finset Cell) (k : ℤ) (st : AIState) : Prop :=
  ghostVal nb k st ∈ st.knowledge_base ∨ (ghostVal nb k st).cell_positions = ∅

/-- Invariant carried through the fixed-point loop of an `add_knowledge (c, k)`
call whose observed neighbourhood is `nb`. -/
def CallInv (nb : Finset Cell) (k : ℤ) (c : Cell) (st : AIState)
    (inferred : Finset KnowledgeStatement) : Prop :=
  DisjointKB st ∧ JInv st inferred ∧ GhostInv nb k st ∧
    c ∈ st.identified_safe_cells

/-- A store in purge normal form: duplicate-free and without empty
statements. -/
def CleanKB (kb : List KnowledgeStatement) : Prop :=
  kb.Nodup ∧ ∀ v ∈ kb, ¬ v.cell_positions = ∅

/-- What holds of the state `s₁` returned by a completed `add_knowledge (c, k)`
call run with the strategy `strat`: the loop invariant still holds for some
seen-set, the store is purge-stable, certifies nothing, and the strategy
cannot produce anything unseen from it. -/
def PostCall (strat : Strategy) (nb : Finset Cell) (k : ℤ) (c : Cell)
    (s₁ : AIState) : Prop :=
  ∃ inferred₁ : Finset KnowledgeStatement,
    CallInv nb k c s₁ inferred₁ ∧
    CleanKB s₁.knowledge_base ∧
    (∀ v ∈ s₁.knowledge_base, v.known_safes = ∅ ∧ v.known_mines = ∅) ∧
    (∀ x ∈ (strat s₁.knowledge_base).2, x ∈ inferred₁)

/-- A well-behaved strategy: it returns the store it was handed unchanged, and
every constraint it infers only mentions cells of the store (both hold for all
seven strategies, cf. the purity claims). -/
def GoodStrategy (strat : Strategy) : Prop :=
  (∀ kb, (strat kb).1 = kb) ∧
  (∀ kb, ∀ s ∈ (strat kb).2, s.cell_positions ⊆ kbCells kb)

/-- The marking phase of a pass: mark every certified safe cell, then every
certified mine. -/
def markPhase (st : AIState) : AIState :=
  (cellSort (collectMines st.knowledge_base)).foldl aiMarkMine
    ((cellSort (collectSafes st.knowledge_base)).foldl aiMarkSafe st)

/-- The purge phase of a pass. -/
def purgePhase (st : AIState) : AIState :=
  { st with knowledge_base := (purgeList st.knowledge_base).1 }

/-- The structurally novel inferences of a pass: strategy output filtered
against the seen-set. -/
def novelOf (strat : Strategy) (st : AIState)
    (inferred : Finset KnowledgeStatement) : List KnowledgeStatement :=
  (strat st.knowledge_base).2.filter (fun s => ¬ s ∈ inferred)

/-- Everything `add_knowledge` does before entering the fixed-point loop:
record the move, mark the observed cell safe, and append the adjusted
neighbourhood constraint when it is non-empty (minesweeper_ai.py lines
83-111). -/
def preIngest (st : AIState) (c : Cell) (k : ℤ) : AIState :=
  let st1 := { st with moves_made := insert c st.moves_made }
  let st2 := aiMarkSafe st1 c
  let nb1 := neighbourhood st2.grid_size c \ st2.identified_safe_cells
  let k' := k - ((nb1 ∩ st2.identified_mines).card : ℤ)
  let nb2 := nb1 \ st2.identified_mines
  if ¬ nb2 = ∅ then
    { st2 with knowledge_base := st2.knowledge_base ++ [⟨nb2, k'⟩] }
  else st2

/-!
### General lemmas about the embedded operations
-/

theorem cellSort_empty : cellSort ∅ = [] := rfl

/-- Membership in a guarded de-duplicating append. -/
theorem mem_dedup_append (P : Prop) [Decidable P] (y x : KnowledgeStatement)
    (acc : List KnowledgeStatement) :
    (x ∈ if P then (if y ∈ acc then acc else acc ++ [y]) else acc) ↔
      x ∈ acc ∨ (P ∧ x = y) := by
  split_ifs with h1 h2
  · constructor
    · exact fun h => Or.inl h
    · rintro (h | ⟨-, rfl⟩)
      · exact h
      · exact h2
  · simp only [List.mem_append, List.mem_singleton]
    constructor
    · rintro (h | rfl)
      · exact Or.inl h
      · exact Or.inr ⟨h1, rfl⟩
    · rintro (h | ⟨-, rfl⟩)
      · exact Or.inl h
      · exact Or.inr rfl
  · constructor
    · exact fun h => Or.inl h
    · rintro (h | ⟨hP, -⟩)
      · exact h
      · exact absurd hP h1

theorem bfInner_cons (st b : KnowledgeStatement) (kb acc : List KnowledgeStatement) :
    bfInner st (b :: kb) acc =
      bfInner st kb
        (if st.cell_positions ⊆ b.cell_positions then
          (if derived st b ∈ acc then acc else acc ++ [derived st b])
        else acc) := rfl

/-- Everything `bfInner` returns is an old accumulator entry or a derived
statement of a subset pair headed by `st`. -/
theorem mem_bfInner (x st : KnowledgeStatement) (kb acc : List KnowledgeStatement) :
    x ∈ bfInner st kb acc ↔
      x ∈ acc ∨ ∃ b ∈ kb, st.cell_positions ⊆ b.cell_positions ∧ x = derived st b := by
  induction kb generalizing acc with
  | nil => simp [bfInner]
  | cons b kb ih =>
    rw [bfInner_cons, ih, mem_dedup_append]
    constructor
    · rintro ((h | ⟨h1, rfl⟩) | ⟨c, hc, hsub, rfl⟩)
      · exact Or.inl h
      · exact Or.inr ⟨b, List.mem_cons_self b kb, h1, rfl⟩
      · exact Or.inr ⟨c, List.mem_cons_of_mem b hc, hsub, rfl⟩
    · rintro (h | ⟨c, hc, hsub, rfl⟩)
      · exact Or.inl (Or.inl h)
      · rcases List.mem_cons.mp hc with rfl | hc
        · exact Or.inl (Or.inr ⟨hsub, rfl⟩)
        · exact Or.inr ⟨c, hc, hsub, rfl⟩

theorem bruteForceCore_foldl_mem (x : KnowledgeStatement)
    (rem kb acc : List KnowledgeStatement) :
    x ∈ rem.foldl (fun acc st => bfInner st kb acc) acc ↔
      x ∈ acc ∨ ∃ a ∈ rem, ∃ b ∈ kb,
        a.cell_positions ⊆ b.cell_positions ∧ x = derived a b := by
  induction rem generalizing acc with
  | nil => simp
  | cons a rem ih =>
    rw [List.foldl_cons, ih]
    constructor
    · rintro (h | ⟨c, hc, d, hd, hsub, rfl⟩)
      · rcases (mem_bfInner x a kb acc).mp h with h | ⟨d, hd, hsub, rfl⟩
        · exact Or.inl h
        · exact Or.inr ⟨a, List.mem_cons_self a rem, d, hd, hsub, rfl⟩
      · exact Or.inr ⟨c, List.mem_cons_of_mem a hc, d, hd, hsub, rfl⟩
    · rintro (h | ⟨c, hc, d, hd, hsub, hx⟩)
      · exact Or.inl ((mem_bfInner x a kb acc).mpr (Or.inl h))
      · rcases List.mem_cons.mp hc with hca | hc
        · exact Or.inl ((mem_bfInner x a kb acc).mpr
            (Or.inr ⟨d, hd, by rw [← hca]; exact hsub, by rw [hx, hca]⟩))
        · exact Or.inr ⟨c, hc, d, hd, hsub, hx⟩

/-- The brute-force output is exactly the set of derived statements of ordered
subset pairs of the input store. -/
theorem mem_bruteForceCore (x : KnowledgeStatement) (kb : List KnowledgeStatement) :
    x ∈ bruteForceCore kb ↔
      ∃ a ∈ kb, ∃ b ∈ kb, a.cell_positions ⊆ b.cell_positions ∧ x = derived a b := by
  rw [bruteForceCore, bruteForceCore_foldl_mem]
  simp

/-- The generalized purge computation agrees with its specification whenever
the `seen` set and the `taken` set are complementary on the remaining
statements. -/
theorem purgeAux_eq_spec (l : List KnowledgeStatement)
    (seen taken : Finset KnowledgeStatement) (acc : List KnowledgeStatement) (d : ℕ)
    (h : ∀ s ∈ l, ¬ s.cell_positions = ∅ → (s ∈ seen ↔ ¬ s ∈ taken)) :
    purgeAux l seen acc d =
      (acc ++ (purgeSpec taken l).1, d + (purgeSpec taken l).2) := by
  induction l generalizing seen taken acc d with
  | nil => simp [purgeAux, purgeSpec]
  | cons s rest ih =>
    by_cases he : s.cell_positions = ∅
    · rw [show purgeAux (s :: rest) seen acc d = purgeAux rest seen acc d by
        simp [purgeAux, he]]
      rw [show purgeSpec taken (s :: rest) = purgeSpec taken rest by
        simp [purgeSpec, he]]
      exact ih seen taken acc d (fun t ht hte => h t (List.mem_cons_of_mem s ht) hte)
    · have hs := h s (List.mem_cons_self s rest) he
      by_cases hseen : s ∈ seen
      · have htaken : ¬ s ∈ taken := hs.mp hseen
        rw [show purgeAux (s :: rest) seen acc d =
            purgeAux rest (seen.erase s) (acc ++ [s]) d by
          simp [purgeAux, he, hseen]]
        rw [show purgeSpec taken (s :: rest) =
            ((s :: (purgeSpec (insert s taken) rest).1),
              (purgeSpec (insert s taken) rest).2) by
          simp [purgeSpec, he, htaken]]
        rw [ih (seen.erase s) (insert s taken) (acc ++ [s]) d ?_]
        · simp
        · intro t ht hte
          by_cases hts : t = s
          · subst hts
            simp
          · rw [Finset.mem_erase, Finset.mem_insert]
            constructor
            · rintro ⟨-, htseen⟩
              rintro (h' | h')
              · exact hts h'
              · exact ((h t (List.mem_cons_of_mem s ht) hte).mp htseen) h'
            · intro h'
              refine ⟨hts, (h t (List.mem_cons_of_mem s ht) hte).mpr ?_⟩
              exact fun h'' => h' (Or.inr h'')
      · have htaken : s ∈ taken := by
          by_contra h'
          exact hseen (hs.mpr h')
        rw [show purgeAux (s :: rest) seen acc d = purgeAux rest seen acc (d + 1) by
          simp [purgeAux, he, hseen]]
        rw [show purgeSpec taken (s :: rest) =
            ((purgeSpec taken rest).1, (purgeSpec taken rest).2 + 1) by
          simp [purgeSpec, he, htaken]]
        rw [ih seen taken acc (d + 1)
          (fun t ht hte => h t (List.mem_cons_of_mem s ht) hte)]
        simp
        omega

/-- The purge computes its specification. -/
theorem purgeList_eq_spec (kb : List KnowledgeStatement) :
    purgeList kb = purgeSpec ∅ kb := by
  rw [purgeList, purgeAux_eq_spec kb kb.toFinset ∅ [] 0 ?_]
  · simp
  · intro s hs _
    simp [List.mem_toFinset, hs]

theorem purgeSpec_list_eq_keepFirsts (taken : Finset KnowledgeStatement)
    (l : List KnowledgeStatement) :
    (purgeSpec taken l).1 = keepFirsts taken (l.filter (fun s => ¬ s.cell_positions = ∅)) := by
  induction l generalizing taken with
  | nil => simp [purgeSpec, keepFirsts]
  | cons s rest ih =>
    by_cases he : s.cell_positions = ∅
    · simp [purgeSpec, he, ih]
    · by_cases ht : s ∈ taken
      · simp [purgeSpec, he, ht, keepFirsts, ih]
      · simp [purgeSpec, he, ht, keepFirsts, ih]

/-- Membership in `keepFirsts`. -/
theorem mem_keepFirsts (x : KnowledgeStatement) (taken : Finset KnowledgeStatement)
    (l : List KnowledgeStatement) :
    x ∈ keepFirsts taken l ↔ x ∈ l ∧ ¬ x ∈ taken := by
  induction l generalizing taken with
  | nil => simp [keepFirsts]
  | cons s rest ih =>
    by_cases ht : s ∈ taken
    · rw [show keepFirsts taken (s :: rest) = keepFirsts taken rest by
        simp [keepFirsts, ht]]
      rw [ih]
      simp only [List.mem_cons]
      constructor
      · rintro ⟨h1, h2⟩
        exact ⟨Or.inr h1, h2⟩
      · rintro ⟨h1 | h1, h2⟩
        · exact absurd (by rw [h1]; exact ht) h2
        · exact ⟨h1, h2⟩
    · rw [show keepFirsts taken (s :: rest) = s :: keepFirsts (insert s taken) rest by
        simp [keepFirsts, ht]]
      simp only [List.mem_cons, ih, Finset.mem_insert]
      constructor
      · rintro (rfl | ⟨h1, h2⟩)
        · exact ⟨Or.inl rfl, ht⟩
        · exact ⟨Or.inr h1, fun h' => h2 (Or.inr h')⟩
      · rintro ⟨rfl | h1, h2⟩
        · exact Or.inl rfl
        · by_cases hx : x = s
          · exact Or.inl hx
          · exact Or.inr ⟨h1, fun h' => Or.elim h' hx h2⟩

/-- `keepFirsts` yields a duplicate-free list. -/
theorem keepFirsts_nodup (taken : Finset KnowledgeStatement)
    (l : List KnowledgeStatement) : (keepFirsts taken l).Nodup := by
  induction l generalizing taken with
  | nil => simp [keepFirsts]
  | cons s rest ih =>
    by_cases ht : s ∈ taken
    · rw [show keepFirsts taken (s :: rest) = keepFirsts taken rest by
        simp [keepFirsts, ht]]
      exact ih taken
    · rw [show keepFirsts taken (s :: rest) = s :: keepFirsts (insert s taken) rest by
        simp [keepFirsts, ht]]
      refine List.nodup_cons.mpr ⟨fun hmem => ?_, ih (insert s taken)⟩
      exact ((mem_keepFirsts s (insert s taken) rest).mp hmem).2
        (Finset.mem_insert_self s taken)

/-- The purge count and the kept length add up to the number of non-empty
occurrences. -/
theorem purgeSpec_count (taken : Finset KnowledgeStatement)
    (l : List KnowledgeStatement) :
    (purgeSpec taken l).2 + (purgeSpec taken l).1.length =
      (l.filter (fun s => ¬ s.cell_positions = ∅)).length := by
  induction l generalizing taken with
  | nil => simp [purgeSpec]
  | cons s rest ih =>
    by_cases he : s.cell_positions = ∅
    · rw [show purgeSpec taken (s :: rest) = purgeSpec taken rest by
        simp [purgeSpec, he]]
      rw [show (s :: rest).filter (fun s => ¬ s.cell_positions = ∅) =
          rest.filter (fun s => ¬ s.cell_positions = ∅) by
        simp [List.filter_cons, he]]
      exact ih taken
    · rw [show (s :: rest).filter (fun s => ¬ s.cell_positions = ∅) =
          s :: rest.filter (fun s => ¬ s.cell_positions = ∅) by
        simp [List.filter_cons, he]]
      by_cases ht : s ∈ taken
      · rw [show purgeSpec taken (s :: rest) =
            ((purgeSpec taken rest).1, (purgeSpec taken rest).2 + 1) by
          simp [purgeSpec, he, ht]]
        have := ih taken
        simp only [List.length_cons]
        omega
      · rw [show purgeSpec taken (s :: rest) =
            ((s :: (purgeSpec (insert s taken) rest).1),
              (purgeSpec (insert s taken) rest).2) by
          simp [purgeSpec, he, ht]]
        have := ih (insert s taken)
        simp only [List.length_cons]
        omega

/-- Two solver states with equal components are equal. -/
theorem AIState_eq_of_components {a b : AIState} (h1 : a.grid_size = b.grid_size)
    (h2 : a.moves_made = b.moves_made)
    (h3 : a.identified_mines = b.identified_mines)
    (h4 : a.identified_safe_cells = b.identified_safe_cells)
    (h5 : a.safe_cell_queue = b.safe_cell_queue)
    (h6 : a.knowledge_base = b.knowledge_base) : a = b := by
  cases a
  cases b
  simp_all

/-- An option known to hold a value equals `some` of its default-read. -/
theorem option_eq_some_getD {α : Type} (X : Option α) (d : α)
    (h : X.isSome = true) : X = some (X.getD d) := by
  cases X with
  | none => simp at h
  | some x => rfl

/-- A statement survives the purge exactly when it is a non-empty member of
the input store. -/
theorem purgeList_mem_iff (kb : List KnowledgeStatement) (s : KnowledgeStatement) :
    s ∈ (purgeList kb).1 ↔ s ∈ kb ∧ ¬ s.cell_positions = ∅ := by
  rw [purgeList_eq_spec, purgeSpec_list_eq_keepFirsts, mem_keepFirsts]
  simp [List.mem_filter]

/-- When no statement certifies any safe or mine cell, a pass only purges, runs
the strategy, and appends the novel inferences. -/
theorem passStep_no_marking (strat : Strategy) (st : AIState)
    (inferred : Finset KnowledgeStatement)
    (hS : collectSafes st.knowledge_base = ∅)
    (hM : collectMines st.knowledge_base = ∅) :
    passStep strat st inferred =
      (({ st with knowledge_base :=
            (strat (purgeList st.knowledge_base).1).1 ++
              ((strat (purgeList st.knowledge_base).1).2.filter
                (fun s => ¬ s ∈ inferred)) } : AIState),
       inferred ∪ ((strat (purgeList st.knowledge_base).1).2.filter
          (fun s => ¬ s ∈ inferred)).toFinset,
       if ((strat (purgeList st.knowledge_base).1).2.filter
            (fun s => ¬ s ∈ inferred)) = [] then false else true) := by
  unfold passStep
  rw [hS, hM]
  simp [cellSort_empty]

/-- A fold whose every step extends the accumulator preserves it as a
sublist. -/
theorem foldl_sublist {α β : Type} (g : List α → β → List α)
    (hg : ∀ acc x, List.Sublist acc (g acc x)) :
    ∀ (l : List β) (acc : List α), List.Sublist acc (l.foldl g acc) := by
  intro l
  induction l with
  | nil => intro acc; exact List.Sublist.refl acc
  | cons b l ih => intro acc; exact (hg acc b).trans (ih (g acc b))

/-- The divide-and-conquer merge starts from `left ++ right` and only appends
to it. -/
theorem dncMerge_sublist (left right : List KnowledgeStatement) :
    (left ++ right).Sublist (dncMerge left right) := by
  unfold dncMerge
  refine foldl_sublist _ (fun acc l => ?_) left (left ++ right)
  refine foldl_sublist _ (fun acc x => ?_) right acc
  split_ifs
  · exact List.Sublist.refl _
  · exact List.sublist_append_left _ _
  · exact List.Sublist.refl _

/-- The divide-and-conquer recursion returns a list containing every input
statement (in order): the base case returns the inputs themselves and the
merge preserves them. -/
theorem dncGo_sublist :
    ∀ (f : ℕ) (kb : List KnowledgeStatement), kb.length ≤ f →
      kb.Sublist (dncGo f kb) := by
  intro f
  induction f with
  | zero =>
    intro kb h
    have : kb = [] := List.eq_nil_of_length_eq_zero (Nat.le_zero.mp h)
    subst this
    exact List.Sublist.refl _
  | succ f ih =>
    intro kb h
    match kb with
    | [] => exact List.Sublist.refl _
    | [s] => exact List.Sublist.refl _
    | a :: b :: rest =>
      have hstep : dncGo (f + 1) (a :: b :: rest) =
          dncMerge
            (dncGo f ((a :: b :: rest).take
              ((((a :: b :: rest).length - 1) / 2) + 1)))
            (dncGo f ((a :: b :: rest).drop
              ((((a :: b :: rest).length - 1) / 2) + 1))) := rfl
      rw [hstep]
      have hlen : (a :: b :: rest).length = rest.length + 2 := by simp
      have h1 : ((a :: b :: rest).take
          ((((a :: b :: rest).length - 1) / 2) + 1)).length ≤ f := by
        rw [List.length_take]
        omega
      have h2 : ((a :: b :: rest).drop
          ((((a :: b :: rest).length - 1) / 2) + 1)).length ≤ f := by
        rw [List.length_drop]
        omega
      have hsub1 := List.Sublist.append (ih _ h1) (ih _ h2)
      have hsub2 := dncMerge_sublist
        (dncGo f ((a :: b :: rest).take ((((a :: b :: rest).length - 1) / 2) + 1)))
        (dncGo f ((a :: b :: rest).drop ((((a :: b :: rest).length - 1) / 2) + 1)))
      have hsub0 : List.Sublist (a :: b :: rest)
          ((a :: b :: rest).take ((((a :: b :: rest).length - 1) / 2) + 1) ++
            (a :: b :: rest).drop ((((a :: b :: rest).length - 1) / 2) + 1)) := by
        rw [List.take_append_drop]
      exact hsub0.trans (hsub1.trans hsub2)

/-- The inner greedy-size scan stops immediately on a same-or-larger
candidate. -/
theorem gsInner_stop (cur nxt : KnowledgeStatement)
    (rest kb inf : List KnowledgeStatement)
    (h : cur.cell_positions.card ≤ nxt.cell_positions.card) :
    gsInner cur (nxt :: rest) kb inf = (kb, inf) := by
  simp [gsInner, h]

/-- On the size-sorted enumeration the greedy-size scan never gets past its
break, so the knowledge base and the inference set never change. -/
theorem gsOuter_no_inference :
    ∀ (rest0 : List KnowledgeStatement) (i : ℕ) (kb : List KnowledgeStatement),
      (pySorted sizeAsc kb).drop i = rest0 →
      gsOuter rest0 i (pySorted sizeAsc kb) kb [] = (kb, []) := by
  intro rest0
  induction rest0 with
  | nil =>
    intro i kb _
    rfl
  | cons cur rest0' ih =>
    intro i kb h
    have hdrop : (pySorted sizeAsc kb).drop (i + 1) = rest0' := by
      have e : (pySorted sizeAsc kb).drop (i + 1) =
          List.drop 1 ((pySorted sizeAsc kb).drop i) := by
        rw [List.drop_drop]
      rw [e, h]
      rfl
    have hinner : gsInner cur ((pySorted sizeAsc kb).drop (i + 1)) kb [] = (kb, []) := by
      rw [hdrop]
      cases rest0' with
      | nil => rfl
      | cons nxt rest'' =>
        have hsorted : (pySorted sizeAsc kb).Sorted sizeAsc :=
          List.sorted_insertionSort sizeAsc kb
        have hs2 : ((pySorted sizeAsc kb).drop i).Pairwise sizeAsc :=
          List.Pairwise.sublist (List.drop_sublist i _) hsorted
        rw [h] at hs2
        have hrel : sizeAsc cur nxt :=
          (List.pairwise_cons.mp hs2).1 nxt (List.mem_cons_self nxt rest'')
        exact gsInner_stop cur nxt rest'' kb [] (Nat.le_of_not_lt hrel)
    have step : gsOuter (cur :: rest0') i (pySorted sizeAsc kb) kb [] =
        gsOuter rest0' (i + 1)
          (pySorted sizeAsc (gsInner cur ((pySorted sizeAsc kb).drop (i + 1)) kb []).1)
          (gsInner cur ((pySorted sizeAsc kb).drop (i + 1)) kb []).1
          (gsInner cur ((pySorted sizeAsc kb).drop (i + 1)) kb []).2 := rfl
    rw [step, hinner]
    exact ih (i + 1) kb hdrop

/-- Marking a cell safe preserves the queue invariant: the cell is appended to
the queue only when it is newly inserted into the identified-safe set. -/
theorem QInv_aiMarkSafe (s : AIState) (c : Cell) (h : QInv s) :
    QInv (aiMarkSafe s c) := by
  unfold QInv aiMarkSafe
  by_cases hc : c ∈ s.identified_safe_cells
  · simp only [if_pos hc]
    exact h
  · simp only [if_neg hc]
    refine ⟨?_, ?_⟩
    · intro x hx
      simp only [List.mem_append, List.mem_singleton] at hx
      rcases hx with hx | rfl
      · exact Finset.mem_insert_of_mem (h.1 x hx)
      · exact Finset.mem_insert_self x s.identified_safe_cells
    · refine List.Nodup.append h.2 (List.nodup_singleton c) ?_
      intro x hx hx'
      simp only [List.mem_singleton] at hx'
      subst hx'
      exact hc (h.1 x hx)

/-- Marking a mine never touches the queue or the safe set. -/
theorem QInv_aiMarkMine (s : AIState) (c : Cell) (h : QInv s) :
    QInv (aiMarkMine s c) := h

theorem QInv_foldl_safe (cs : List Cell) :
    ∀ s : AIState, QInv s → QInv (cs.foldl aiMarkSafe s) := by
  induction cs with
  | nil => exact fun s h => h
  | cons c cs ih => exact fun s h => ih (aiMarkSafe s c) (QInv_aiMarkSafe s c h)

theorem QInv_foldl_mine (cs : List Cell) :
    ∀ s : AIState, QInv s → QInv (cs.foldl aiMarkMine s) := by
  induction cs with
  | nil => exact fun s h => h
  | cons c cs ih => exact fun s h => ih (aiMarkMine s c) (QInv_aiMarkMine s c h)

/-- A propagation pass preserves the queue invariant. -/
theorem QInv_passStep (strat : Strategy) (st : AIState)
    (inferred : Finset KnowledgeStatement) (h : QInv st) :
    QInv (passStep strat st inferred).1 :=
  QInv_foldl_mine (cellSort (collectMines st.knowledge_base))
    ((cellSort (collectSafes st.knowledge_base)).foldl aiMarkSafe st)
    (QInv_foldl_safe (cellSort (collectSafes st.knowledge_base)) st h)

/-- The fixed-point loop preserves the queue invariant. -/
theorem QInv_propLoop (strat : Strategy) :
    ∀ (fuel : ℕ) (st : AIState) (inferred : Finset KnowledgeStatement)
      (s' : AIState), propLoop strat fuel st inferred = some s' → QInv st →
      QInv s' := by
  intro fuel
  induction fuel with
  | zero =>
    intro st inferred s' h
    exact absurd h (by simp [propLoop])
  | succ f ih =>
    intro st inferred s' h hq
    rw [show propLoop strat (f + 1) st inferred =
        (if (passStep strat st inferred).2.2 then
          propLoop strat f (passStep strat st inferred).1
            (passStep strat st inferred).2.1
        else some (passStep strat st inferred).1) from rfl] at h
    by_cases hb : (passStep strat st inferred).2.2 = true
    · rw [if_pos hb] at h
      exact ih _ _ _ h (QInv_passStep strat st inferred hq)
    · rw [if_neg hb] at h
      exact (Option.some.inj h) ▸ QInv_passStep strat st inferred hq

/-- An ingestion call preserves the queue invariant. -/
theorem QInv_add_knowledge (strat : Strategy) (fuel : ℕ) (s : AIState) (c : Cell)
    (k : ℤ) (s' : AIState) (h : add_knowledge strat fuel s c k = some s')
    (hq : QInv s) : QInv s' := by
  unfold add_knowledge at h
  refine QInv_propLoop strat fuel _ _ s' h ?_
  split_ifs
  · exact QInv_aiMarkSafe _ c hq
  · exact QInv_aiMarkSafe _ c hq

theorem okStmt_known_safes (v : KnowledgeStatement) (h : okStmt v) :
    v.known_safes = ∅ := by
  unfold KnowledgeStatement.known_safes
  rcases h with ⟨h1, h2⟩ | ⟨h1, h2⟩ | ⟨h1, h2⟩ | ⟨h1, h2⟩ | ⟨h1, h2⟩ | h1
  · rw [if_neg (by omega)]
  · rw [if_neg (by omega)]
  · rw [if_neg (by omega)]
  · rcases h2 with h2 | h2 <;> rw [if_neg (by omega)]
  · rw [if_neg (by omega)]
  · split_ifs
    · exact h1
    · rfl

theorem okStmt_known_mines (v : KnowledgeStatement) (h : okStmt v) :
    v.known_mines = ∅ := by
  unfold KnowledgeStatement.known_mines
  rcases h with ⟨h1, h2⟩ | ⟨h1, h2⟩ | ⟨h1, h2⟩ | ⟨h1, h2⟩ | ⟨h1, h2⟩ | h1
  · rw [h1, show ((uSet.card : ℤ)) = 1 from by decide, if_neg (by omega)]
  · rw [h1, show ((dSet.card : ℤ)) = 2 from by decide, if_neg (by omega)]
  · rw [h1, show ((eSet.card : ℤ)) = 2 from by decide, if_neg (by omega)]
  · rcases h2 with h2 | h2 <;>
      rw [h1, show ((sSet.card : ℤ)) = 3 from by decide, if_neg (by omega)]
  · rw [h1, show ((qSet.card : ℤ)) = 4 from by decide, if_neg (by omega)]
  · rw [h1]
    split_ifs <;> rfl

theorem collect_foldl_empty (f : KnowledgeStatement → Finset Cell)
    (kb : List KnowledgeStatement) (h : ∀ v ∈ kb, f v = ∅) :
    ∀ acc : Finset Cell, kb.foldl (fun acc s => acc ∪ f s) acc = acc := by
  induction kb with
  | nil => intro acc; rfl
  | cons v kb ih =>
    intro acc
    rw [List.foldl_cons, h v (List.mem_cons_self v kb), Finset.union_empty]
    exact ih (fun w hw => h w (List.mem_cons_of_mem v hw)) acc

theorem okStmt_uSet (v : KnowledgeStatement) (h : okStmt v)
    (hc : v.cell_positions = uSet) : v.mine_count % 10 = 8 := by
  rcases h with ⟨h1, h2⟩ | ⟨h1, h2⟩ | ⟨h1, h2⟩ | ⟨h1, h2⟩ | ⟨h1, h2⟩ | h1
  · exact h2
  · exact absurd (h1.symm.trans hc) (by decide)
  · exact absurd (h1.symm.trans hc) (by decide)
  · exact absurd (h1.symm.trans hc) (by decide)
  · exact absurd (h1.symm.trans hc) (by decide)
  · exact absurd (h1.symm.trans hc) (by decide)

theorem okStmt_dSet (v : KnowledgeStatement) (h : okStmt v)
    (hc : v.cell_positions = dSet) : v.mine_count % 10 = 7 := by
  rcases h with ⟨h1, h2⟩ | ⟨h1, h2⟩ | ⟨h1, h2⟩ | ⟨h1, h2⟩ | ⟨h1, h2⟩ | h1
  · exact absurd (h1.symm.trans hc) (by decide)
  · exact h2
  · exact absurd (h1.symm.trans hc) (by decide)
  · exact absurd (h1.symm.trans hc) (by decide)
  · exact absurd (h1.symm.trans hc) (by decide)
  · exact absurd (h1.symm.trans hc) (by decide)

theorem okStmt_eSet (v : KnowledgeStatement) (h : okStmt v)
    (hc : v.cell_positions = eSet) : v.mine_count % 10 = 4 := by
  rcases h with ⟨h1, h2⟩ | ⟨h1, h2⟩ | ⟨h1, h2⟩ | ⟨h1, h2⟩ | ⟨h1, h2⟩ | h1
  · exact absurd (h1.symm.trans hc) (by decide)
  · exact absurd (h1.symm.trans hc) (by decide)
  · exact h2
  · exact absurd (h1.symm.trans hc) (by decide)
  · exact absurd (h1.symm.trans hc) (by decide)
  · exact absurd (h1.symm.trans hc) (by decide)

theorem okStmt_sSet (v : KnowledgeStatement) (h : okStmt v)
    (hc : v.cell_positions = sSet) : v.mine_count = 5 ∨ v.mine_count = 15 := by
  rcases h with ⟨h1, h2⟩ | ⟨h1, h2⟩ | ⟨h1, h2⟩ | ⟨h1, h2⟩ | ⟨h1, h2⟩ | h1
  · exact absurd (h1.symm.trans hc) (by decide)
  · exact absurd (h1.symm.trans hc) (by decide)
  · exact absurd (h1.symm.trans hc) (by decide)
  · exact h2
  · exact absurd (h1.symm.trans hc) (by decide)
  · exact absurd (h1.symm.trans hc) (by decide)

theorem okStmt_qSet (v : KnowledgeStatement) (h : okStmt v)
    (hc : v.cell_positions = qSet) : v.mine_count = 11 := by
  rcases h with ⟨h1, h2⟩ | ⟨h1, h2⟩ | ⟨h1, h2⟩ | ⟨h1, h2⟩ | ⟨h1, h2⟩ | h1
  · exact absurd (h1.symm.trans hc) (by decide)
  · exact absurd (h1.symm.trans hc) (by decide)
  · exact absurd (h1.symm.trans hc) (by decide)
  · exact absurd (h1.symm.trans hc) (by decide)
  · exact h2
  · exact absurd (h1.symm.trans hc) (by decide)

theorem mk_cells_eq (c1 c2 : Finset Cell) (n : ℤ) (h : c1 = c2) :
    (⟨c1, n⟩ : KnowledgeStatement) = ⟨c2, n⟩ := by rw [h]

/-- Exhaustive case analysis of the subset pairs available among `okStmt`
statements with non-empty cells: either the pair has equal cell sets (and the
derived statement is empty-celled), or it is one of the four productive pairs
`uSet ⊂ sSet`, `dSet ⊂ sSet`, `dSet ⊂ qSet`, `eSet ⊂ qSet`. -/
theorem derived_cases (a b : KnowledgeStatement) (ha : okStmt a) (hb : okStmt b)
    (hane : ¬ a.cell_positions = ∅) (hbne : ¬ b.cell_positions = ∅)
    (hsub : a.cell_positions ⊆ b.cell_positions) :
    (a.cell_positions = b.cell_positions ∧ (derived a b).cell_positions = ∅) ∨
    (a.cell_positions = uSet ∧ b.cell_positions = sSet ∧
      derived a b = ⟨dSet, b.mine_count - a.mine_count⟩) ∨
    (a.cell_positions = dSet ∧ b.cell_positions = sSet ∧
      derived a b = ⟨uSet, b.mine_count - a.mine_count⟩) ∨
    (a.cell_positions = dSet ∧ b.cell_positions = qSet ∧
      derived a b = ⟨eSet, b.mine_count - a.mine_count⟩) ∨
    (a.cell_positions = eSet ∧ b.cell_positions = qSet ∧
      derived a b = ⟨dSet, b.mine_count - a.mine_count⟩) := by
  rcases ha with ⟨ha1, -⟩ | ⟨ha1, -⟩ | ⟨ha1, -⟩ | ⟨ha1, -⟩ | ⟨ha1, -⟩ | ha1 <;>
    rcases hb with ⟨hb1, -⟩ | ⟨hb1, -⟩ | ⟨hb1, -⟩ | ⟨hb1, -⟩ | ⟨hb1, -⟩ | hb1 <;>
    first
      | exact absurd ha1 hane
      | exact absurd hb1 hbne
      | exact absurd hsub (by rw [ha1, hb1]; decide)
      | exact Or.inl ⟨ha1.trans hb1.symm, by
          show b.cell_positions \ a.cell_positions = ∅
          rw [ha1, hb1]; decide⟩
      | exact Or.inr (Or.inl ⟨ha1, hb1, by
          show (⟨b.cell_positions \ a.cell_positions,
            b.mine_count - a.mine_count⟩ : KnowledgeStatement) = _
          rw [ha1, hb1]; exact mk_cells_eq _ _ _ (by decide)⟩)
      | exact Or.inr (Or.inr (Or.inl ⟨ha1, hb1, by
          show (⟨b.cell_positions \ a.cell_positions,
            b.mine_count - a.mine_count⟩ : KnowledgeStatement) = _
          rw [ha1, hb1]; exact mk_cells_eq _ _ _ (by decide)⟩))
      | exact Or.inr (Or.inr (Or.inr (Or.inl ⟨ha1, hb1, by
          show (⟨b.cell_positions \ a.cell_positions,
            b.mine_count - a.mine_count⟩ : KnowledgeStatement) = _
          rw [ha1, hb1]; exact mk_cells_eq _ _ _ (by decide)⟩)))
      | exact Or.inr (Or.inr (Or.inr (Or.inr ⟨ha1, hb1, by
          show (⟨b.cell_positions \ a.cell_positions,
            b.mine_count - a.mine_count⟩ : KnowledgeStatement) = _
          rw [ha1, hb1]; exact mk_cells_eq _ _ _ (by decide)⟩)))

/-- Every brute-force output over an `okStmt` store with the `xm`/`ym` bounds
obeys the shape constraint with the updated extremes `15 - ym` and `5 - xm`. -/
theorem out_bounds (kbp : List KnowledgeStatement)
    (xm ym : ℤ) (hxm : xm % 10 = 8) (hym : ym % 10 = 7)
    (hsum : xm + ym = 5 ∨ xm + ym = 15)
    (hok : ∀ v ∈ kbp, okStmt v) (hne : ∀ v ∈ kbp, ¬ v.cell_positions = ∅)
    (hub : ∀ v ∈ kbp, v.cell_positions = uSet → v.mine_count ≤ xm)
    (hdb : ∀ v ∈ kbp, v.cell_positions = dSet → ym ≤ v.mine_count)
    (heb : ∀ v ∈ kbp, v.cell_positions = eSet → v.mine_count ≤ 6 + xm)
    (w : KnowledgeStatement) (hw : w ∈ bruteForceCore kbp) :
    okStmt w ∧ (w.cell_positions = uSet → w.mine_count ≤ 15 - ym) ∧
    (w.cell_positions = dSet → 5 - xm ≤ w.mine_count) ∧
    (w.cell_positions = eSet → w.mine_count ≤ 6 + (15 - ym)) := by
  obtain ⟨a, hain, b, hbin, hsub, hweq⟩ := (mem_bruteForceCore w kbp).mp hw
  subst hweq
  rcases derived_cases a b (hok a hain) (hok b hbin) (hne a hain) (hne b hbin)
      hsub with
    ⟨hc, hder⟩ | ⟨hca, hcb, hder⟩ | ⟨hca, hcb, hder⟩ | ⟨hca, hcb, hder⟩ |
      ⟨hca, hcb, hder⟩
  · refine ⟨Or.inr (Or.inr (Or.inr (Or.inr (Or.inr hder)))), ?_, ?_, ?_⟩
    · intro h; exact absurd (hder.symm.trans h) (by decide)
    · intro h; exact absurd (hder.symm.trans h) (by decide)
    · intro h; exact absurd (hder.symm.trans h) (by decide)
  · have ha2 := okStmt_uSet a (hok a hain) hca
    have ha3 := hub a hain hca
    have hb2 := okStmt_sSet b (hok b hbin) hcb
    rw [hder]
    refine ⟨Or.inr (Or.inl ⟨rfl, ?_⟩), ?_, ?_, ?_⟩
    · show (b.mine_count - a.mine_count) % 10 = 7
      omega
    · intro h
      exact absurd (show dSet = uSet from h) (by decide)
    · intro _
      show 5 - xm ≤ b.mine_count - a.mine_count
      omega
    · intro h
      exact absurd (show dSet = eSet from h) (by decide)
  · have ha2 := okStmt_dSet a (hok a hain) hca
    have ha3 := hdb a hain hca
    have hb2 := okStmt_sSet b (hok b hbin) hcb
    rw [hder]
    refine ⟨Or.inl ⟨rfl, ?_⟩, ?_, ?_, ?_⟩
    · show (b.mine_count - a.mine_count) % 10 = 8
      omega
    · intro _
      show b.mine_count - a.mine_count ≤ 15 - ym
      omega
    · intro h
      exact absurd (show uSet = dSet from h) (by decide)
    · intro h
      exact absurd (show uSet = eSet from h) (by decide)
  · have ha2 := okStmt_dSet a (hok a hain) hca
    have ha3 := hdb a hain hca
    have hb2 := okStmt_qSet b (hok b hbin) hcb
    rw [hder]
    refine ⟨Or.inr (Or.inr (Or.inl ⟨rfl, ?_⟩)), ?_, ?_, ?_⟩
    · show (b.mine_count - a.mine_count) % 10 = 4
      omega
    · intro h
      exact absurd (show eSet = uSet from h) (by decide)
    · intro h
      exact absurd (show eSet = dSet from h) (by decide)
    · intro _
      show b.mine_count - a.mine_count ≤ 6 + (15 - ym)
      omega
  · have ha2 := okStmt_eSet a (hok a hain) hca
    have ha3 := heb a hain hca
    have hb2 := okStmt_qSet b (hok b hbin) hcb
    rw [hder]
    refine ⟨Or.inr (Or.inl ⟨rfl, ?_⟩), ?_, ?_, ?_⟩
    · show (b.mine_count - a.mine_count) % 10 = 7
      omega
    · intro h
      exact absurd (show dSet = uSet from h) (by decide)
    · intro _
      show 5 - xm ≤ b.mine_count - a.mine_count
      omega
    · intro h
      exact absurd (show dSet = eSet from h) (by decide)

/-- Component equations of a brute-force pass without marking. -/
theorem passStep_brute_no_marking (st : AIState)
    (inf : Finset KnowledgeStatement)
    (hS : collectSafes st.knowledge_base = ∅)
    (hM : collectMines st.knowledge_base = ∅) :
    (passStep bruteStrategy st inf).1.knowledge_base =
        (purgeList st.knowledge_base).1 ++
          ((bruteForceCore (purgeList st.knowledge_base).1).filter
            (fun s => ¬ s ∈ inf)) ∧
    (passStep bruteStrategy st inf).2.1 =
        inf ∪ ((bruteForceCore (purgeList st.knowledge_base).1).filter
          (fun s => ¬ s ∈ inf)).toFinset ∧
    (passStep bruteStrategy st inf).2.2 =
        (if ((bruteForceCore (purgeList st.knowledge_base).1).filter
            (fun s => ¬ s ∈ inf)) = [] then false else true) := by
  rw [passStep_no_marking bruteStrategy st inf hS hM]
  exact ⟨rfl, rfl, rfl⟩

/-- One pass of the diverging loop reports `knowledge_changed` and preserves
the invariant with the flipped extremes. -/
theorem INV_pass (st : AIState) (inf : Finset KnowledgeStatement)
    (h : INV st inf) :
    (passStep bruteStrategy st inf).2.2 = true ∧
    INV (passStep bruteStrategy st inf).1 (passStep bruteStrategy st inf).2.1 := by
  obtain ⟨xm, ym, hxm, hym, hsum, hS5, hS15, hu, hd, hkbinf, hok, hub, hdb, heb⟩ := h
  have hkbok : ∀ v ∈ st.knowledge_base, okStmt v := fun v hv => hok v (hkbinf v hv)
  have hSe : collectSafes st.knowledge_base = ∅ :=
    collect_foldl_empty _ st.knowledge_base
      (fun v hv => okStmt_known_safes v (hkbok v hv)) ∅
  have hMe : collectMines st.knowledge_base = ∅ :=
    collect_foldl_empty _ st.knowledge_base
      (fun v hv => okStmt_known_mines v (hkbok v hv)) ∅
  have heq := passStep_brute_no_marking st inf hSe hMe
  have hpmem := fun v : KnowledgeStatement =>
    purgeList_mem_iff st.knowledge_base v
  have hpok : ∀ v ∈ (purgeList st.knowledge_base).1, okStmt v :=
    fun v hv => hkbok v ((hpmem v).mp hv).1
  have hpne : ∀ v ∈ (purgeList st.knowledge_base).1, ¬ v.cell_positions = ∅ :=
    fun v hv => ((hpmem v).mp hv).2
  have hpinf : ∀ v ∈ (purgeList st.knowledge_base).1, v ∈ inf :=
    fun v hv => hkbinf v ((hpmem v).mp hv).1
  have hpub : ∀ v ∈ (purgeList st.knowledge_base).1,
      v.cell_positions = uSet → v.mine_count ≤ xm :=
    fun v hv => hub v (hpinf v hv)
  have hpdb : ∀ v ∈ (purgeList st.knowledge_base).1,
      v.cell_positions = dSet → ym ≤ v.mine_count :=
    fun v hv => hdb v (hpinf v hv)
  have hpeb : ∀ v ∈ (purgeList st.knowledge_base).1,
      v.cell_positions = eSet → v.mine_count ≤ 6 + xm :=
    fun v hv => heb v (hpinf v hv)
  have hout : ∀ w ∈ bruteForceCore (purgeList st.knowledge_base).1,
      okStmt w ∧ (w.cell_positions = uSet → w.mine_count ≤ 15 - ym) ∧
      (w.cell_positions = dSet → 5 - xm ≤ w.mine_count) ∧
      (w.cell_positions = eSet → w.mine_count ≤ 6 + (15 - ym)) :=
    fun w hw => out_bounds _ xm ym hxm hym hsum hpok hpne hpub hpdb hpeb w hw
  have hdneE : ¬ dSet = ∅ := by decide
  have huneE : ¬ uSet = ∅ := by decide
  have hsneE : ¬ sSet = ∅ := by decide
  have hdsub : dSet ⊆ sSet := by decide
  have husub : uSet ⊆ sSet := by decide
  have hdp : (⟨dSet, ym⟩ : KnowledgeStatement) ∈ (purgeList st.knowledge_base).1 :=
    (hpmem _).mpr ⟨hd, fun h => hdneE h⟩
  have hup : (⟨uSet, xm⟩ : KnowledgeStatement) ∈ (purgeList st.knowledge_base).1 :=
    (hpmem _).mpr ⟨hu, fun h => huneE h⟩
  have hS5p : (⟨sSet, 5⟩ : KnowledgeStatement) ∈ (purgeList st.knowledge_base).1 :=
    (hpmem _).mpr ⟨hS5, fun h => hsneE h⟩
  have hS15p : (⟨sSet, 15⟩ : KnowledgeStatement) ∈ (purgeList st.knowledge_base).1 :=
    (hpmem _).mpr ⟨hS15, fun h => hsneE h⟩
  have huout : (⟨uSet, 15 - ym⟩ : KnowledgeStatement) ∈
      bruteForceCore (purgeList st.knowledge_base).1 := by
    refine (mem_bruteForceCore _ _).mpr
      ⟨⟨dSet, ym⟩, hdp, ⟨sSet, 15⟩, hS15p, hdsub, ?_⟩
    show (⟨uSet, 15 - ym⟩ : KnowledgeStatement) = ⟨sSet \ dSet, 15 - ym⟩
    exact mk_cells_eq _ _ _ (by decide)
  have hdout : (⟨dSet, 5 - xm⟩ : KnowledgeStatement) ∈
      bruteForceCore (purgeList st.knowledge_base).1 := by
    refine (mem_bruteForceCore _ _).mpr
      ⟨⟨uSet, xm⟩, hup, ⟨sSet, 5⟩, hS5p, husub, ?_⟩
    show (⟨dSet, 5 - xm⟩ : KnowledgeStatement) = ⟨sSet \ uSet, 5 - xm⟩
    exact mk_cells_eq _ _ _ (by decide)
  have hnovel : ¬ ((bruteForceCore (purgeList st.knowledge_base).1).filter
      (fun s => ¬ s ∈ inf)) = [] := by
    rcases hsum with h5 | h15
    · refine List.ne_nil_of_mem (List.mem_filter.mpr ⟨huout, decide_eq_true ?_⟩)
      intro hmem
      have h2 : 15 - ym ≤ xm := hub _ hmem rfl
      omega
    · refine List.ne_nil_of_mem (List.mem_filter.mpr ⟨hdout, decide_eq_true ?_⟩)
      intro hmem
      have h2 : ym ≤ 5 - xm := hdb _ hmem rfl
      omega
  refine ⟨by rw [heq.2.2, if_neg hnovel], ?_⟩
  refine ⟨15 - ym, 5 - xm, by omega, by omega, by omega, ?_, ?_, ?_, ?_, ?_, ?_,
    ?_, ?_, ?_⟩
  · rw [heq.1]
    exact List.mem_append.mpr (Or.inl hS5p)
  · rw [heq.1]
    exact List.mem_append.mpr (Or.inl hS15p)
  · rw [heq.1]
    rcases hsum with h5 | h15
    · refine List.mem_append.mpr (Or.inr (List.mem_filter.mpr
        ⟨huout, decide_eq_true ?_⟩))
      intro hmem
      have h2 : 15 - ym ≤ xm := hub _ hmem rfl
      omega
    · have hxeq : (15 : ℤ) - ym = xm := by omega
      rw [hxeq]
      exact List.mem_append.mpr (Or.inl hup)
  · rw [heq.1]
    rcases hsum with h5 | h15
    · have hyeq : (5 : ℤ) - xm = ym := by omega
      rw [hyeq]
      exact List.mem_append.mpr (Or.inl hdp)
    · refine List.mem_append.mpr (Or.inr (List.mem_filter.mpr
        ⟨hdout, decide_eq_true ?_⟩))
      intro hmem
      have h2 : ym ≤ 5 - xm := hdb _ hmem rfl
      omega
  · intro v hv
    rw [heq.1] at hv
    rw [heq.2.1]
    rcases List.mem_append.mp hv with hv | hv
    · exact Finset.mem_union_left _ (hpinf v hv)
    · exact Finset.mem_union_right _ (List.mem_toFinset.mpr hv)
  · intro v hv
    rw [heq.2.1] at hv
    rcases Finset.mem_union.mp hv with hv | hv
    · exact hok v hv
    · exact (hout v (List.mem_filter.mp (List.mem_toFinset.mp hv)).1).1
  · intro v hv hc
    rw [heq.2.1] at hv
    rcases Finset.mem_union.mp hv with hv | hv
    · have := hub v hv hc
      omega
    · exact (hout v (List.mem_filter.mp (List.mem_toFinset.mp hv)).1).2.1 hc
  · intro v hv hc
    rw [heq.2.1] at hv
    rcases Finset.mem_union.mp hv with hv | hv
    · have := hdb v hv hc
      omega
    · exact (hout v (List.mem_filter.mp (List.mem_toFinset.mp hv)).1).2.2.1 hc
  · intro v hv hc
    rw [heq.2.1] at hv
    rcases Finset.mem_union.mp hv with hv | hv
    · have := heb v hv hc
      omega
    · exact (hout v (List.mem_filter.mp (List.mem_toFinset.mp hv)).1).2.2.2 hc

/-- A state satisfying the invariant never reaches the loop's exit condition,
whatever the fuel. -/
theorem propLoop_none_of_INV :
    ∀ (fuel : ℕ) (st : AIState) (inf : Finset KnowledgeStatement),
      INV st inf → propLoop bruteStrategy fuel st inf = none := by
  intro fuel
  induction fuel with
  | zero => intro st inf _; rfl
  | succ f ih =>
    intro st inf h
    have hp := INV_pass st inf h
    rw [show propLoop bruteStrategy (f + 1) st inf =
        (if (passStep bruteStrategy st inf).2.2 then
          propLoop bruteStrategy f (passStep bruteStrategy st inf).1
            (passStep bruteStrategy st inf).2.1
        else some (passStep bruteStrategy st inf).1) from rfl]
    rw [if_pos hp.1]
    exact ih _ _ hp.2

/-!
### Claim theorems
-/

/-- C5: for every pair of Constraints `A`, `B` in the input store with
`A.cells ⊆ B.cells`, the Exhaustive (brute-force) strategy's de-duplicated
output contains the Constraint `(B.cells − A.cells, B.mine_count −
A.mine_count)`; in particular, on the store `[{(0,0),(0,1)}=1,
{(0,0),(0,1),(0,2)}=2]` its output contains `{(0,2)}=1`. -/
theorem exhaustive_strategy_subset_rule :
    (∀ (kb : List KnowledgeStatement) (A B : KnowledgeStatement), A ∈ kb → B ∈ kb →
        A.cell_positions ⊆ B.cell_positions →
        (⟨B.cell_positions \ A.cell_positions, B.mine_count - A.mine_count⟩ :
            KnowledgeStatement) ∈ bruteForceCore kb) ∧
      (⟨{((0 : ℤ), (2 : ℤ))}, 1⟩ : KnowledgeStatement) ∈
        bruteForceCore
          [⟨{((0 : ℤ), (0 : ℤ)), ((0 : ℤ), (1 : ℤ))}, 1⟩,
           ⟨{((0 : ℤ), (0 : ℤ)), ((0 : ℤ), (1 : ℤ)), ((0 : ℤ), (2 : ℤ))}, 2⟩] := by
  constructor
  · intro kb A B hA hB hsub
    exact (mem_bruteForceCore _ kb).mpr ⟨A, hA, B, hB, hsub, rfl⟩
  · decide

theorem exhaustive_strategy_subset_rule_witness :
    (⟨({((0 : ℤ), (0 : ℤ)), ((1 : ℤ), (1 : ℤ))} : Finset Cell) \
        {((0 : ℤ), (0 : ℤ))}, 1 - 0⟩ : KnowledgeStatement) ∈
      bruteForceCore
        [⟨{((0 : ℤ), (0 : ℤ))}, 0⟩,
         ⟨{((0 : ℤ), (0 : ℤ)), ((1 : ℤ), (1 : ℤ))}, 1⟩] :=
  exhaustive_strategy_subset_rule.1
    [⟨{((0 : ℤ), (0 : ℤ))}, 0⟩, ⟨{((0 : ℤ), (0 : ℤ)), ((1 : ℤ), (1 : ℤ))}, 1⟩]
    ⟨{((0 : ℤ), (0 : ℤ))}, 0⟩ ⟨{((0 : ℤ), (0 : ℤ)), ((1 : ℤ), (1 : ℤ))}, 1⟩
    (by decide) (by decide) (by decide)

/-- C6: `mark_cell_as_mine` on a contained cell removes it and decrements the
count by one; `mark_cell_as_safe` on a contained cell removes it and keeps the
count; either operation on an absent cell is a no-op; both operations are
idempotent. -/
theorem constraint_mutation_contract (s : KnowledgeStatement) (c : Cell) :
    (c ∈ s.cell_positions →
        s.mark_cell_as_mine c =
            ⟨s.cell_positions.erase c, s.mine_count - 1⟩ ∧
          s.mark_cell_as_safe c = ⟨s.cell_positions.erase c, s.mine_count⟩) ∧
    (¬ c ∈ s.cell_positions →
        s.mark_cell_as_mine c = s ∧ s.mark_cell_as_safe c = s) ∧
    (s.mark_cell_as_mine c).mark_cell_as_mine c = s.mark_cell_as_mine c ∧
    (s.mark_cell_as_safe c).mark_cell_as_safe c = s.mark_cell_as_safe c := by
  refine ⟨fun h => ?_, fun h => ?_, ?_, ?_⟩
  · constructor <;>
      simp [KnowledgeStatement.mark_cell_as_mine,
        KnowledgeStatement.mark_cell_as_safe, h]
  · constructor <;>
      simp [KnowledgeStatement.mark_cell_as_mine,
        KnowledgeStatement.mark_cell_as_safe, h]
  · by_cases h : c ∈ s.cell_positions <;>
      simp [KnowledgeStatement.mark_cell_as_mine, h]
  · by_cases h : c ∈ s.cell_positions <;>
      simp [KnowledgeStatement.mark_cell_as_safe, h]

theorem constraint_mutation_contract_witness :
    (⟨{((1 : ℤ), (1 : ℤ))}, 1⟩ : KnowledgeStatement).mark_cell_as_mine
        ((1 : ℤ), (1 : ℤ)) =
      ⟨(({((1 : ℤ), (1 : ℤ))} : Finset Cell)).erase ((1 : ℤ), (1 : ℤ)), 1 - 1⟩ ∧
    (⟨{((1 : ℤ), (1 : ℤ))}, 1⟩ : KnowledgeStatement).mark_cell_as_mine
        ((5 : ℤ), (5 : ℤ)) = ⟨{((1 : ℤ), (1 : ℤ))}, 1⟩ :=
  ⟨((constraint_mutation_contract ⟨{((1 : ℤ), (1 : ℤ))}, 1⟩ ((1 : ℤ), (1 : ℤ))).1
      (by decide)).1,
   ((constraint_mutation_contract ⟨{((1 : ℤ), (1 : ℤ))}, 1⟩ ((5 : ℤ), (5 : ℤ))).2.1
      (by decide)).1⟩

/-- C8: after the purge the store has no empty Constraints and no two
structurally equal Constraints; a statement survives exactly when it is a
non-empty member of the input (duplicates collapse to one occurrence); and the
duplicate counter accounts exactly for every removed duplicate occurrence:
counter + kept = number of non-empty occurrences. -/
theorem purge_correctness (kb : List KnowledgeStatement) :
    (purgeList kb).1 = dedupFirst kb ∧
    (∀ s ∈ (purgeList kb).1, ¬ s.cell_positions = ∅) ∧
    (purgeList kb).1.Nodup ∧
    (∀ s : KnowledgeStatement,
        s ∈ (purgeList kb).1 ↔ s ∈ kb ∧ ¬ s.cell_positions = ∅) ∧
    (purgeList kb).2 + (purgeList kb).1.length =
      (kb.filter (fun s => ¬ s.cell_positions = ∅)).length := by
  have h1 : (purgeList kb).1 =
      keepFirsts ∅ (kb.filter (fun s => ¬ s.cell_positions = ∅)) := by
    rw [purgeList_eq_spec, purgeSpec_list_eq_keepFirsts]
  refine ⟨?_, ?_, ?_, ?_, ?_⟩
  · rw [h1]; rfl
  · intro s hs
    rw [h1] at hs
    have hmem := ((mem_keepFirsts s ∅ _).mp hs).1
    have := List.mem_filter.mp hmem
    simpa using this.2
  · rw [h1]; exact keepFirsts_nodup ∅ _
  · intro s
    exact purgeList_mem_iff kb s
  · rw [purgeList_eq_spec]
    exact purgeSpec_count ∅ kb

theorem purge_correctness_witness :
    (purgeList [(⟨{((0 : ℤ), (0 : ℤ))}, 1⟩ : KnowledgeStatement),
        ⟨{((0 : ℤ), (0 : ℤ))}, 1⟩]).1 =
      dedupFirst [⟨{((0 : ℤ), (0 : ℤ))}, 1⟩, ⟨{((0 : ℤ), (0 : ℤ))}, 1⟩] ∧
    ¬ (⟨{((0 : ℤ), (0 : ℤ))}, 1⟩ : KnowledgeStatement).cell_positions = ∅ ∧
    (purgeList [(⟨{((0 : ℤ), (0 : ℤ))}, 1⟩ : KnowledgeStatement),
        ⟨{((0 : ℤ), (0 : ℤ))}, 1⟩]).2 +
      (purgeList [(⟨{((0 : ℤ), (0 : ℤ))}, 1⟩ : KnowledgeStatement),
          ⟨{((0 : ℤ), (0 : ℤ))}, 1⟩]).1.length =
      ([(⟨{((0 : ℤ), (0 : ℤ))}, 1⟩ : KnowledgeStatement),
          ⟨{((0 : ℤ), (0 : ℤ))}, 1⟩].filter
        (fun s => ¬ s.cell_positions = ∅)).length :=
  ⟨(purge_correctness _).1,
   (purge_correctness [(⟨{((0 : ℤ), (0 : ℤ))}, 1⟩ : KnowledgeStatement),
        ⟨{((0 : ℤ), (0 : ℤ))}, 1⟩]).2.1 ⟨{((0 : ℤ), (0 : ℤ))}, 1⟩ (by decide),
   (purge_correctness _).2.2.2.2⟩

/-- C9: any strategy-selector string other than the seven known keys selects
the brute-force strategy and raises the fallback signal; any safe-cell-policy
string other than the four known keys selects FIFO with the same signal;
selection is total (never a hard failure). -/
theorem unknown_key_fallback :
    (∀ s : String,
        ¬ (s = "brute_force" ∨ s = "divide_and_conquer" ∨
           s = "dynamic_programming" ∨ s = "greedy_algorithm_size" ∨
           s = "greedy_algorithm_minecount" ∨ s = "bfs" ∨ s = "dfs") →
        select_algorithm s = (AlgorithmName.brute_force, true)) ∧
    (∀ s : String,
        ¬ (s = "First In, First Out" ∨ s = "Last In, First Out" ∨
           s = "Sorted by position" ∨ s = "Random") →
        select_strategy s = (StrategyName.fifo, true)) := by
  constructor
  · intro s h
    push_neg at h
    obtain ⟨h1, h2, h3, h4, h5, h6, h7⟩ := h
    have e1 : (s == "brute_force") = false := beq_eq_false_iff_ne.mpr h1
    have e2 : (s == "divide_and_conquer") = false := beq_eq_false_iff_ne.mpr h2
    have e3 : (s == "dynamic_programming") = false := beq_eq_false_iff_ne.mpr h3
    have e4 : (s == "greedy_algorithm_size") = false := beq_eq_false_iff_ne.mpr h4
    have e5 : (s == "greedy_algorithm_minecount") = false := beq_eq_false_iff_ne.mpr h5
    have e6 : (s == "bfs") = false := beq_eq_false_iff_ne.mpr h6
    have e7 : (s == "dfs") = false := beq_eq_false_iff_ne.mpr h7
    simp [select_algorithm, algorithms, List.lookup, e1, e2, e3, e4, e5, e6, e7]
  · intro s h
    push_neg at h
    obtain ⟨h1, h2, h3, h4⟩ := h
    have e1 : (s == "First In, First Out") = false := beq_eq_false_iff_ne.mpr h1
    have e2 : (s == "Last In, First Out") = false := beq_eq_false_iff_ne.mpr h2
    have e3 : (s == "Sorted by position") = false := beq_eq_false_iff_ne.mpr h3
    have e4 : (s == "Random") = false := beq_eq_false_iff_ne.mpr h4
    simp [select_strategy, strategies, List.lookup, e1, e2, e3, e4]

theorem unknown_key_fallback_witness :
    select_algorithm "BFS" = (AlgorithmName.brute_force, true) ∧
    select_strategy "FIFO" = (StrategyName.fifo, true) :=
  ⟨unknown_key_fallback.1 "BFS" (by decide),
   unknown_key_fallback.2 "FIFO" (by decide)⟩

/-- C10: on every non-empty store the brute-force output contains the empty
Constraint `(∅, 0)` (each statement compared with itself); in a pass where it
is not yet in the seen-set the engine appends it to the store as a novel
inference; and every purge removes it again. -/
theorem empty_constraint_edge_case :
    (∀ kb : List KnowledgeStatement, ¬ kb = [] →
        (⟨∅, 0⟩ : KnowledgeStatement) ∈ bruteForceCore kb) ∧
    (∀ (st : AIState) (inferred : Finset KnowledgeStatement),
        collectSafes st.knowledge_base = ∅ → collectMines st.knowledge_base = ∅ →
        ¬ (purgeList st.knowledge_base).1 = [] →
        ¬ (⟨∅, 0⟩ : KnowledgeStatement) ∈ inferred →
        (⟨∅, 0⟩ : KnowledgeStatement) ∈
          (passStep bruteStrategy st inferred).1.knowledge_base) ∧
    (∀ kb : List KnowledgeStatement,
        ¬ (⟨∅, 0⟩ : KnowledgeStatement) ∈ (purgeList kb).1) := by
  have hbf : ∀ kb : List KnowledgeStatement, ¬ kb = [] →
      (⟨∅, 0⟩ : KnowledgeStatement) ∈ bruteForceCore kb := by
    intro kb hkb
    match kb with
    | [] => exact absurd rfl hkb
    | a :: rest =>
      refine (mem_bruteForceCore _ _).mpr
        ⟨a, List.mem_cons_self a rest, a, List.mem_cons_self a rest,
          Finset.Subset.refl _, ?_⟩
      simp [derived]
  refine ⟨hbf, ?_, ?_⟩
  · intro st inferred hS hM hne hnew
    rw [passStep_no_marking bruteStrategy st inferred hS hM]
    have hmem : (⟨∅, 0⟩ : KnowledgeStatement) ∈
        bruteForceCore (purgeList st.knowledge_base).1 := hbf _ hne
    have : (⟨∅, 0⟩ : KnowledgeStatement) ∈
        (bruteForceCore (purgeList st.knowledge_base).1).filter
          (fun s => ¬ s ∈ inferred) := by
      rw [List.mem_filter]
      exact ⟨hmem, by simpa using hnew⟩
    exact List.mem_append.mpr (Or.inr this)
  · intro kb hmem
    exact ((purgeList_mem_iff kb ⟨∅, 0⟩).mp hmem).2 rfl

theorem select_fifo_sublist (q : List Cell) (c : Cell) (q' : List Cell)
    (h : select_fifo q = some (c, q')) : q'.Sublist q := by
  match q with
  | [] => exact absurd h (by simp [select_fifo])
  | x :: rest =>
    have : q' = rest := by
      have := Option.some.inj h
      exact (congrArg Prod.snd this).symm
    subst this
    exact List.Sublist.cons x (List.Sublist.refl q')

theorem select_lifo_sublist (q : List Cell) (c : Cell) (q' : List Cell)
    (h : select_lifo q = some (c, q')) : q'.Sublist q := by
  unfold select_lifo at h
  match hrev : q.reverse with
  | [] => rw [hrev] at h; exact absurd h (by simp)
  | x :: rest =>
    rw [hrev] at h
    have hq' : q' = rest.reverse := by
      have := Option.some.inj h
      exact (congrArg Prod.snd this).symm
    have hq : q = rest.reverse ++ [x] := by
      have : q.reverse.reverse = (x :: rest).reverse := by rw [hrev]
      simpa using this
    rw [hq', hq]
    exact List.sublist_append_left rest.reverse [x]

theorem select_sorted_sublist (q : List Cell) (c : Cell) (q' : List Cell)
    (h : select_sorted q = some (c, q')) : q'.Sublist q := by
  unfold select_sorted at h
  match hs : List.insertionSort cellLe q with
  | [] => rw [hs] at h; exact absurd h (by simp)
  | x :: rest =>
    rw [hs] at h
    have hq' : q' = q.erase x := by
      have := Option.some.inj h
      exact (congrArg Prod.snd this).symm
    rw [hq']
    exact List.erase_sublist x q

theorem select_random_sublist (n : ℕ) (q : List Cell) (c : Cell) (q' : List Cell)
    (h : select_random n q = some (c, q')) : q'.Sublist q := by
  match q with
  | [] => exact absurd h (by simp [select_random])
  | x :: rest =>
    have hq' : q' = (x :: rest).erase
        ((x :: rest).get ⟨n % (x :: rest).length, Nat.mod_lt n (Nat.succ_pos rest.length)⟩) := by
      have := Option.some.inj h
      exact (congrArg Prod.snd this).symm
    rw [hq']
    exact List.erase_sublist _ _

/-- A queue that satisfies the invariant still satisfies it after any
element-removing pop. -/
theorem QInv_pop (s : AIState) (q' : List Cell)
    (hsub : q'.Sublist s.safe_cell_queue) (h : QInv s) :
    QInv { s with safe_cell_queue := q' } :=
  ⟨fun c hc => h.1 c (hsub.subset hc), h.2.sublist hsub⟩

/-- C3 (counterexample): the very first ingestion enqueues the played cell
itself: after `add_knowledge((0,0), 5)` on a fresh 3×3 solver, `(0,0)` is both
in `safe_cell_queue` and in `moves_made`, so the queue is not restricted to
not-yet-played cells. -/
theorem safe_queue_counterexample :
    add_knowledge bruteStrategy 10 (initState 3) ((0 : ℤ), (0 : ℤ)) 5 =
      some ⟨3, {((0 : ℤ), (0 : ℤ))}, ∅, {((0 : ℤ), (0 : ℤ))},
        [((0 : ℤ), (0 : ℤ))],
        [⟨{((0 : ℤ), (1 : ℤ)), ((1 : ℤ), (0 : ℤ)), ((1 : ℤ), (1 : ℤ))}, 5⟩]⟩ ∧
    ((0 : ℤ), (0 : ℤ)) ∈ [((0 : ℤ), (0 : ℤ))] ∧
    ((0 : ℤ), (0 : ℤ)) ∈ ({((0 : ℤ), (0 : ℤ))} : Finset Cell) := by
  refine ⟨by decide, List.mem_cons_self _ _, by decide⟩

/-- C3 (amended): in every solver state reachable by any sequence of
ingestions and safe-move pops, the safe-cell queue contains only identified
safe cells, each at most once; it can, however, contain already-played cells
(the ingested cell itself is enqueued when first marked safe). -/
theorem safe_queue_invariant (strat : Strategy) (s : AIState)
    (h : Reachable strat s) :
    (∀ c ∈ s.safe_cell_queue, c ∈ s.identified_safe_cells) ∧
    s.safe_cell_queue.Nodup := by
  have : QInv s := by
    induction h with
    | init g => exact ⟨fun c hc => absurd hc (List.not_mem_nil c), List.nodup_nil⟩
    | ingest hr hadd ih => exact QInv_add_knowledge _ _ _ _ _ _ hadd ih
    | pop_fifo hr hpop ih => exact QInv_pop _ _ (select_fifo_sublist _ _ _ hpop) ih
    | pop_lifo hr hpop ih => exact QInv_pop _ _ (select_lifo_sublist _ _ _ hpop) ih
    | pop_sorted hr hpop ih => exact QInv_pop _ _ (select_sorted_sublist _ _ _ hpop) ih
    | pop_random hr hpop ih =>
        exact QInv_pop _ _ (select_random_sublist _ _ _ _ hpop) ih
  exact this

theorem safe_queue_invariant_witness :
    (∀ c ∈ (initState 3).safe_cell_queue,
        c ∈ (initState 3).identified_safe_cells) ∧
    (initState 3).safe_cell_queue.Nodup :=
  safe_queue_invariant bruteStrategy (initState 3) (Reachable.init 3)

/-- C4: the claim that the fixed-point loop inside one ingestion call always
terminates is refuted by the code: after the three (inconsistent, unvalidated)
observations of `obsChain3` on a 3×3 grid with the brute-force strategy, the
solver is in `divergenceState`, and re-observing `(0,0)` with count 15 starts a
loop that never reaches a pass without change — for every fuel the loop is
still running.  The "bounded by the finite power set of grid cells" argument
fails because the mine counts of novel statements grow without bound (the
spec's consistency precondition is not validated by `add_knowledge`). -/
theorem propagation_loop_divergence :
    obsChain3 = some divergenceState ∧
    ∀ fuel : ℕ,
      add_knowledge bruteStrategy fuel divergenceState ((0 : ℤ), (0 : ℤ)) 15 =
        none := by
  have h1 : add_knowledge bruteStrategy 10 (initState 3) ((0 : ℤ), (0 : ℤ)) 5 =
      some ⟨3, {((0 : ℤ), (0 : ℤ))}, ∅, {((0 : ℤ), (0 : ℤ))},
        [((0 : ℤ), (0 : ℤ))], [⟨sSet, 5⟩]⟩ := by decide
  have h2 : add_knowledge bruteStrategy 10
      (⟨3, {((0 : ℤ), (0 : ℤ))}, ∅, {((0 : ℤ), (0 : ℤ))},
        [((0 : ℤ), (0 : ℤ))], [⟨sSet, 5⟩]⟩ : AIState) ((0 : ℤ), (2 : ℤ)) 7 =
      some ⟨3, {((0 : ℤ), (0 : ℤ)), ((0 : ℤ), (2 : ℤ))}, ∅,
        {((0 : ℤ), (0 : ℤ)), ((0 : ℤ), (2 : ℤ))},
        [((0 : ℤ), (0 : ℤ)), ((0 : ℤ), (2 : ℤ))],
        [⟨sSet, 5⟩,
         ⟨{((0 : ℤ), (1 : ℤ)), ((1 : ℤ), (1 : ℤ)), ((1 : ℤ), (2 : ℤ))}, 7⟩]⟩ := by
    refine (option_eq_some_getD _ (initState 0) ?_).trans ?_
    · decide
    · exact congrArg some (AIState_eq_of_components (by decide) (by decide)
        (by decide) (by decide) (by decide) (by decide))
  have h3 : add_knowledge bruteStrategy 10
      (⟨3, {((0 : ℤ), (0 : ℤ)), ((0 : ℤ), (2 : ℤ))}, ∅,
        {((0 : ℤ), (0 : ℤ)), ((0 : ℤ), (2 : ℤ))},
        [((0 : ℤ), (0 : ℤ)), ((0 : ℤ), (2 : ℤ))],
        [⟨sSet, 5⟩,
         ⟨{((0 : ℤ), (1 : ℤ)), ((1 : ℤ), (1 : ℤ)), ((1 : ℤ), (2 : ℤ))}, 7⟩]⟩ :
        AIState) ((1 : ℤ), (2 : ℤ)) 11 = some divergenceState := by
    refine (option_eq_some_getD _ (initState 0) ?_).trans ?_
    · decide
    · exact congrArg some (AIState_eq_of_components (by decide) (by decide)
        (by decide) (by decide) (by decide) (by decide))
  constructor
  · unfold obsChain3
    rw [h1]
    show (add_knowledge bruteStrategy 10
      (⟨3, {((0 : ℤ), (0 : ℤ))}, ∅, {((0 : ℤ), (0 : ℤ))},
        [((0 : ℤ), (0 : ℤ))], [⟨sSet, 5⟩]⟩ : AIState) ((0 : ℤ), (2 : ℤ)) 7).bind
        (fun s => add_knowledge bruteStrategy 10 s ((1 : ℤ), (2 : ℤ)) 11) =
      some divergenceState
    rw [h2]
    exact h3
  · intro fuel
    unfold add_knowledge
    apply propLoop_none_of_INV
    exact ⟨-2, 7, by decide, by decide, by decide, by decide, by decide,
      by decide, by decide, by decide, by decide, by decide, by decide,
      by decide⟩

/-- C2 (counterexample): the divide-and-conquer strategy does not return only
newly derived candidates — on the singleton store `[{(0,0)} = 1]` its returned
inference list is exactly the input list, so an input Constraint appears in the
returned list. -/
theorem strategy_purity_counterexample :
    divide_and_conquer_search [(⟨{((0 : ℤ), (0 : ℤ))}, 1⟩ : KnowledgeStatement)] =
      ([⟨{((0 : ℤ), (0 : ℤ))}, 1⟩], [⟨{((0 : ℤ), (0 : ℤ))}, 1⟩]) ∧
    (⟨{((0 : ℤ), (0 : ℤ))}, 1⟩ : KnowledgeStatement) ∈
      [(⟨{((0 : ℤ), (0 : ℤ))}, 1⟩ : KnowledgeStatement)] ∧
    (⟨{((0 : ℤ), (0 : ℤ))}, 1⟩ : KnowledgeStatement) ∈
      (divide_and_conquer_search
        [(⟨{((0 : ℤ), (0 : ℤ))}, 1⟩ : KnowledgeStatement)]).2 :=
  ⟨rfl, List.mem_cons_self _ _, List.mem_cons_self _ _⟩

/-- C2 (amended): every strategy leaves the passed knowledge-base list
unchanged — including greedy-by-size, whose append-to-the-store branch is
unreachable because its size-ascending inner scan breaks at the first
same-or-larger candidate, making its inference list empty as well — except
that divide-and-conquer additionally returns every input Constraint inside its
inference list (its recursion's base case returns the inputs); only the
Propagation Engine merges inferences into the store. -/
theorem strategy_purity :
    (∀ kb : List KnowledgeStatement, (brute_force_search kb).1 = kb) ∧
    (∀ kb : List KnowledgeStatement, (divide_and_conquer_search kb).1 = kb) ∧
    (∀ kb : List KnowledgeStatement, (dynamic_programming_search kb).1 = kb) ∧
    (∀ kb : List KnowledgeStatement, greedy_algorithm_size_search kb = (kb, [])) ∧
    (∀ kb : List KnowledgeStatement, (greedy_algorithm_minecount_search kb).1 = kb) ∧
    (∀ (fuel : ℕ) (kb : List KnowledgeStatement), (bfs_search fuel kb).1 = kb) ∧
    (∀ (fuel : ℕ) (kb : List KnowledgeStatement), (dfs_search fuel kb).1 = kb) ∧
    (∀ kb : List KnowledgeStatement,
        kb.Sublist (divide_and_conquer_search kb).2) := by
  refine ⟨fun _ => rfl, fun _ => rfl, fun _ => rfl, ?_, fun _ => rfl,
    fun _ _ => rfl, fun _ _ => rfl, ?_⟩
  · intro kb
    exact gsOuter_no_inference (pySorted sizeAsc kb) 0 kb rfl
  · intro kb
    exact dncGo_sublist kb.length kb (Nat.le_refl _)

/-- C7 (counterexample): the greedy mine-count strategy does not sort by
`mine_count` alone — Python's `sorted(kb, reverse=True)` uses the `__lt__`
comparator `(len(cells), mine_count)`.  On the store
`[{(0,0),(0,1)}=1, {(0,0)}=3]` the code's scan infers `{(0,1)} = -2`, while a
scan of the mine-count-descending order would infer nothing, so the two sort
keys produce observably different outputs. -/
theorem greedy_minecount_sort_key_counterexample :
    mcOuter (pySorted descLt
        [⟨{((0 : ℤ), (0 : ℤ)), ((0 : ℤ), (1 : ℤ))}, 1⟩, ⟨{((0 : ℤ), (0 : ℤ))}, 3⟩]) [] =
      [⟨{((0 : ℤ), (1 : ℤ))}, -2⟩] ∧
    mcOuter (pySorted countDesc
        [⟨{((0 : ℤ), (0 : ℤ)), ((0 : ℤ), (1 : ℤ))}, 1⟩, ⟨{((0 : ℤ), (0 : ℤ))}, 3⟩]) [] =
      [] ∧
    ¬ mcOuter (pySorted descLt
          [⟨{((0 : ℤ), (0 : ℤ)), ((0 : ℤ), (1 : ℤ))}, 1⟩, ⟨{((0 : ℤ), (0 : ℤ))}, 3⟩]) [] =
        mcOuter (pySorted countDesc
          [⟨{((0 : ℤ), (0 : ℤ)), ((0 : ℤ), (1 : ℤ))}, 1⟩, ⟨{((0 : ℤ), (0 : ℤ))}, 3⟩]) [] := by
  refine ⟨by decide, by decide, by decide⟩

/-- C7 (amended): the greedy mine-count strategy first sorts the store
descending under the `__lt__` comparator `(len(cells), mine_count)` — not by
`mine_count` alone — then, for each constraint of that sorted order, scans the
subsequent constraints, deriving from subset pairs and stopping the inner scan
at the first non-subset pair; the input list itself is returned unchanged. -/
theorem greedy_minecount_scan_order (kb : List KnowledgeStatement) :
    (pySorted descLt kb).Perm kb ∧
    (pySorted descLt kb).Sorted descLt ∧
    greedy_algorithm_minecount_search kb = (kb, mcOuter (pySorted descLt kb) []) ∧
    (∀ (cur nxt : KnowledgeStatement) (rest acc : List KnowledgeStatement),
        ¬ nxt.cell_positions ⊆ cur.cell_positions →
        mcInner cur (nxt :: rest) acc = acc) ∧
    (∀ (cur nxt : KnowledgeStatement) (rest acc : List KnowledgeStatement),
        nxt.cell_positions ⊆ cur.cell_positions →
        mcInner cur (nxt :: rest) acc =
          mcInner cur rest
            (if derived nxt cur ∈ acc then acc else acc ++ [derived nxt cur])) := by
  refine ⟨List.perm_insertionSort descLt kb, List.sorted_insertionSort descLt kb,
    rfl, ?_, ?_⟩
  · intro cur nxt rest acc h
    simp [mcInner, h]
  · intro cur nxt rest acc h
    simp [mcInner, h]

theorem greedy_minecount_scan_order_witness :
    greedy_algorithm_minecount_search
        [(⟨{((0 : ℤ), (0 : ℤ))}, 3⟩ : KnowledgeStatement)] =
      ([⟨{((0 : ℤ), (0 : ℤ))}, 3⟩],
        mcOuter (pySorted descLt [⟨{((0 : ℤ), (0 : ℤ))}, 3⟩]) []) ∧
    mcInner (⟨{((0 : ℤ), (0 : ℤ)), ((0 : ℤ), (1 : ℤ))}, 1⟩ : KnowledgeStatement)
        [⟨{((5 : ℤ), (5 : ℤ))}, 0⟩] [] = [] :=
  ⟨(greedy_minecount_scan_order [⟨{((0 : ℤ), (0 : ℤ))}, 3⟩]).2.2.1,
   (greedy_minecount_scan_order []).2.2.2.1
     ⟨{((0 : ℤ), (0 : ℤ)), ((0 : ℤ), (1 : ℤ))}, 1⟩ ⟨{((5 : ℤ), (5 : ℤ))}, 0⟩ [] []
     (by decide)⟩

theorem empty_constraint_edge_case_witness :
    (⟨∅, 0⟩ : KnowledgeStatement) ∈
      bruteForceCore [(⟨{((0 : ℤ), (0 : ℤ)), ((0 : ℤ), (1 : ℤ))}, 1⟩ :
        KnowledgeStatement)] ∧
    (⟨∅, 0⟩ : KnowledgeStatement) ∈
      (passStep bruteStrategy
        (⟨3, ∅, ∅, ∅, [],
          [⟨{((0 : ℤ), (0 : ℤ)), ((0 : ℤ), (1 : ℤ))}, 1⟩]⟩ : AIState)
        ∅).1.knowledge_base ∧
    ¬ (⟨∅, 0⟩ : KnowledgeStatement) ∈
      (purgeList [(⟨∅, 0⟩ : KnowledgeStatement),
        ⟨{((0 : ℤ), (0 : ℤ))}, 1⟩]).1 :=
  ⟨empty_constraint_edge_case.1 _ (by decide),
   empty_constraint_edge_case.2.1 _ ∅ (by decide) (by decide) (by decide)
     (by decide),
   empty_constraint_edge_case.2.2 _⟩

/-!
### Lemmas for the fixed-point (re-ingestion) analysis
-/

/-- `mark_cell_as_safe` always removes exactly the marked cell and keeps the
count (a no-op when the cell is absent). -/
theorem markSafe_val (s : KnowledgeStatement) (c : Cell) :
    s.mark_cell_as_safe c = ⟨s.cell_positions \ {c}, s.mine_count⟩ := by
  unfold KnowledgeStatement.mark_cell_as_safe
  split_ifs with h
  · rw [Finset.sdiff_singleton_eq_erase]
  · rw [Finset.sdiff_singleton_eq_erase, Finset.erase_eq_of_not_mem h]

/-- `mark_cell_as_mine` removes the marked cell and decrements the count
exactly when the cell was present. -/
theorem markMine_val (s : KnowledgeStatement) (c : Cell) :
    s.mark_cell_as_mine c =
      ⟨s.cell_positions \ {c},
       s.mine_count - (if c ∈ s.cell_positions then 1 else 0)⟩ := by
  unfold KnowledgeStatement.mark_cell_as_mine
  split_ifs with h
  · rw [Finset.sdiff_singleton_eq_erase]
  · rw [Finset.sdiff_singleton_eq_erase, Finset.erase_eq_of_not_mem h]
    simp

theorem aiMarkSafe_mines (st : AIState) (c : Cell) :
    (aiMarkSafe st c).identified_mines = st.identified_mines := by
  unfold aiMarkSafe
  split_ifs <;> rfl

theorem aiMarkSafe_safes (st : AIState) (c : Cell) :
    (aiMarkSafe st c).identified_safe_cells = insert c st.identified_safe_cells := by
  unfold aiMarkSafe
  split_ifs with h
  · show st.identified_safe_cells = _
    rw [Finset.insert_eq_self.mpr h]
  · rfl

theorem aiMarkSafe_kb (st : AIState) (c : Cell) :
    (aiMarkSafe st c).knowledge_base =
      st.knowledge_base.map (fun s => s.mark_cell_as_safe c) := by
  unfold aiMarkSafe
  split_ifs <;> rfl

theorem aiMarkSafe_grid (st : AIState) (c : Cell) :
    (aiMarkSafe st c).grid_size = st.grid_size := by
  unfold aiMarkSafe
  split_ifs <;> rfl

theorem aiMarkMine_mines (st : AIState) (c : Cell) :
    (aiMarkMine st c).identified_mines = insert c st.identified_mines := rfl

theorem aiMarkMine_safes (st : AIState) (c : Cell) :
    (aiMarkMine st c).identified_safe_cells = st.identified_safe_cells := rfl

theorem aiMarkMine_kb (st : AIState) (c : Cell) :
    (aiMarkMine st c).knowledge_base =
      st.knowledge_base.map (fun s => s.mark_cell_as_mine c) := rfl

theorem aiMarkMine_grid (st : AIState) (c : Cell) :
    (aiMarkMine st c).grid_size = st.grid_size := rfl

/-- Enumerating a set of cells visits exactly its members. -/
theorem mem_cellSort (x : Cell) (s : Finset Cell) :
    x ∈ cellSort s ↔ x ∈ s := by
  rcases s with ⟨m, hm⟩
  revert hm
  refine Quotient.inductionOn m ?_
  intro l hl
  show x ∈ List.insertionSort cellLe l ↔ _
  rw [(List.perm_insertionSort cellLe l).mem_iff]
  simp [Finset.mem_mk]

/-- Membership in a union-accumulating fold. -/
theorem mem_foldl_union (f : KnowledgeStatement → Finset Cell)
    (kb : List KnowledgeStatement) :
    ∀ (acc : Finset Cell) (x : Cell),
      x ∈ kb.foldl (fun a s => a ∪ f s) acc ↔ x ∈ acc ∨ ∃ v ∈ kb, x ∈ f v := by
  induction kb with
  | nil => intro acc x; simp
  | cons v kb ih =>
    intro acc x
    rw [List.foldl_cons, ih]
    simp [Finset.mem_union, or_assoc]

theorem mem_kbCells (x : Cell) (kb : List KnowledgeStatement) :
    x ∈ kbCells kb ↔ ∃ v ∈ kb, x ∈ v.cell_positions := by
  unfold kbCells
  rw [mem_foldl_union]
  simp

theorem collectSafes_eq_empty (kb : List KnowledgeStatement) :
    collectSafes kb = ∅ ↔ ∀ v ∈ kb, v.known_safes = ∅ := by
  unfold collectSafes
  constructor
  · intro h v hv
    ext x
    simp only [Finset.not_mem_empty, iff_false]
    intro hx
    have : x ∈ kb.foldl (fun a s => a ∪ s.known_safes) ∅ :=
      (mem_foldl_union _ kb ∅ x).mpr (Or.inr ⟨v, hv, hx⟩)
    rw [h] at this
    exact Finset.not_mem_empty x this
  · intro h
    exact collect_foldl_empty _ kb h ∅

theorem collectMines_eq_empty (kb : List KnowledgeStatement) :
    collectMines kb = ∅ ↔ ∀ v ∈ kb, v.known_mines = ∅ := by
  unfold collectMines
  constructor
  · intro h v hv
    ext x
    simp only [Finset.not_mem_empty, iff_false]
    intro hx
    have : x ∈ kb.foldl (fun a s => a ∪ s.known_mines) ∅ :=
      (mem_foldl_union _ kb ∅ x).mpr (Or.inr ⟨v, hv, hx⟩)
    rw [h] at this
    exact Finset.not_mem_empty x this
  · intro h
    exact collect_foldl_empty _ kb h ∅

theorem known_safes_subset (v : KnowledgeStatement) :
    v.known_safes ⊆ v.cell_positions := by
  unfold KnowledgeStatement.known_safes
  split_ifs
  · exact Finset.Subset.refl _
  · exact Finset.empty_subset _

theorem known_mines_subset (v : KnowledgeStatement) :
    v.known_mines ⊆ v.cell_positions := by
  unfold KnowledgeStatement.known_mines
  split_ifs
  · exact Finset.Subset.refl _
  · exact Finset.empty_subset _

theorem empty_knowns (v : KnowledgeStatement) (h : v.cell_positions = ∅) :
    v.known_safes = ∅ ∧ v.known_mines = ∅ := by
  constructor
  · unfold KnowledgeStatement.known_safes
    split_ifs <;> simp [h]
  · unfold KnowledgeStatement.known_mines
    split_ifs <;> simp [h]

/-- Mapping a function that fixes every member is the identity. -/
theorem list_map_id_of {α : Type} (f : α → α) :
    ∀ l : List α, (∀ v ∈ l, f v = v) → l.map f = l := by
  intro l
  induction l with
  | nil => intro _; rfl
  | cons v l ih =>
    intro h
    rw [List.map_cons, h v (List.mem_cons_self v l),
      ih (fun w hw => h w (List.mem_cons_of_mem v hw))]

/-- Marking a safe cell preserves the separation invariant. -/
theorem DisjointKB_aiMarkSafe (st : AIState) (c : Cell) (h : DisjointKB st) :
    DisjointKB (aiMarkSafe st c) := by
  intro v hv x hx
  rw [aiMarkSafe_kb] at hv
  obtain ⟨w, hw, rfl⟩ := List.mem_map.mp hv
  rw [markSafe_val] at hx
  simp only [Finset.mem_sdiff, Finset.mem_singleton] at hx
  obtain ⟨hxw, hxc⟩ := hx
  constructor
  · rw [aiMarkSafe_mines]; exact (h w hw x hxw).1
  · rw [aiMarkSafe_safes]
    intro hmem
    rcases Finset.mem_insert.mp hmem with h1 | h1
    · exact hxc h1
    · exact (h w hw x hxw).2 h1

/-- Marking a mine preserves the separation invariant. -/
theorem DisjointKB_aiMarkMine (st : AIState) (c : Cell) (h : DisjointKB st) :
    DisjointKB (aiMarkMine st c) := by
  intro v hv x hx
  rw [aiMarkMine_kb] at hv
  obtain ⟨w, hw, rfl⟩ := List.mem_map.mp hv
  rw [markMine_val] at hx
  simp only [Finset.mem_sdiff, Finset.mem_singleton] at hx
  obtain ⟨hxw, hxc⟩ := hx
  constructor
  · rw [aiMarkMine_mines]
    intro hmem
    rcases Finset.mem_insert.mp hmem with h1 | h1
    · exact hxc h1
    · exact (h w hw x hxw).1 h1
  · rw [aiMarkMine_safes]; exact (h w hw x hxw).2

/-- Marking a safe cell preserves the seen-set invariant. -/
theorem JInv_aiMarkSafe (st : AIState) (inferred : Finset KnowledgeStatement)
    (c : Cell) (h : JInv st inferred) : JInv (aiMarkSafe st c) inferred := by
  intro x hx
  rcases h x hx with hkb | ⟨cl, hcl, hid⟩ | hemp
  · by_cases hc : c ∈ x.cell_positions
    · exact Or.inr (Or.inl ⟨c, hc, Or.inr (by
        rw [aiMarkSafe_safes]; exact Finset.mem_insert_self c _)⟩)
    · refine Or.inl ?_
      rw [aiMarkSafe_kb]
      refine List.mem_map.mpr ⟨x, hkb, ?_⟩
      unfold KnowledgeStatement.mark_cell_as_safe
      rw [if_neg hc]
  · refine Or.inr (Or.inl ⟨cl, hcl, ?_⟩)
    rcases hid with h1 | h1
    · exact Or.inl (by rw [aiMarkSafe_mines]; exact h1)
    · exact Or.inr (by rw [aiMarkSafe_safes]; exact Finset.mem_insert_of_mem h1)
  · exact Or.inr (Or.inr hemp)

/-- Marking a mine preserves the seen-set invariant. -/
theorem JInv_aiMarkMine (st : AIState) (inferred : Finset KnowledgeStatement)
    (c : Cell) (h : JInv st inferred) : JInv (aiMarkMine st c) inferred := by
  intro x hx
  rcases h x hx with hkb | ⟨cl, hcl, hid⟩ | hemp
  · by_cases hc : c ∈ x.cell_positions
    · exact Or.inr (Or.inl ⟨c, hc, Or.inl (by
        rw [aiMarkMine_mines]; exact Finset.mem_insert_self c _)⟩)
    · refine Or.inl ?_
      rw [aiMarkMine_kb]
      refine List.mem_map.mpr ⟨x, hkb, ?_⟩
      unfold KnowledgeStatement.mark_cell_as_mine
      rw [if_neg hc]
  · refine Or.inr (Or.inl ⟨cl, hcl, ?_⟩)
    rcases hid with h1 | h1
    · exact Or.inl (by rw [aiMarkMine_mines]; exact Finset.mem_insert_of_mem h1)
    · exact Or.inr (by rw [aiMarkMine_safes]; exact h1)
  · exact Or.inr (Or.inr hemp)

/-- Marking safe a cell that is not an identified mine moves the ghost
constraint by exactly `mark_cell_as_safe`. -/
theorem ghostVal_aiMarkSafe (nb : Finset Cell) (k : ℤ) (st : AIState) (c : Cell)
    (hc : ¬ c ∈ st.identified_mines) :
    ghostVal nb k (aiMarkSafe st c) = (ghostVal nb k st).mark_cell_as_safe c := by
  rw [markSafe_val]
  unfold ghostVal
  rw [aiMarkSafe_safes, aiMarkSafe_mines]
  have hcells : (nb \ insert c st.identified_safe_cells) \ st.identified_mines =
      ((nb \ st.identified_safe_cells) \ st.identified_mines) \ {c} := by
    ext x
    simp only [Finset.mem_sdiff, Finset.mem_insert, Finset.mem_singleton]
    tauto
  have hcount : (nb \ insert c st.identified_safe_cells) ∩ st.identified_mines =
      (nb \ st.identified_safe_cells) ∩ st.identified_mines := by
    ext x
    simp only [Finset.mem_inter, Finset.mem_sdiff, Finset.mem_insert]
    constructor
    · rintro ⟨⟨h1, h2⟩, h3⟩
      exact ⟨⟨h1, fun h => h2 (Or.inr h)⟩, h3⟩
    · rintro ⟨⟨h1, h2⟩, h3⟩
      refine ⟨⟨h1, fun h => ?_⟩, h3⟩
      rcases h with h | h
      · exact hc (h ▸ h3)
      · exact h2 h
  rw [hcells, hcount]

/-- Marking safe preserves the ghost-tracking invariant (for cells that are not
identified mines — the marking phase only marks store cells, which are never
identified). -/
theorem GhostInv_aiMarkSafe (nb : Finset Cell) (k : ℤ) (st : AIState) (c : Cell)
    (hc : ¬ c ∈ st.identified_mines) (h : GhostInv nb k st) :
    GhostInv nb k (aiMarkSafe st c) := by
  rcases h with hmem | hemp
  · refine Or.inl ?_
    rw [ghostVal_aiMarkSafe nb k st c hc, aiMarkSafe_kb]
    exact List.mem_map.mpr ⟨_, hmem, rfl⟩
  · refine Or.inr ?_
    rw [ghostVal_aiMarkSafe nb k st c hc, markSafe_val]
    show (ghostVal nb k st).cell_positions \ {c} = ∅
    rw [hemp]
    exact Finset.empty_sdiff _

/-- Marking a mine moves the ghost constraint by exactly `mark_cell_as_mine`. -/
theorem ghostVal_aiMarkMine (nb : Finset Cell) (k : ℤ) (st : AIState) (c : Cell) :
    ghostVal nb k (aiMarkMine st c) = (ghostVal nb k st).mark_cell_as_mine c := by
  rw [markMine_val]
  have gc : (ghostVal nb k st).cell_positions =
      (nb \ st.identified_safe_cells) \ st.identified_mines := rfl
  have gm : (ghostVal nb k st).mine_count =
      k - (((nb \ st.identified_safe_cells) ∩ st.identified_mines).card : ℤ) := rfl
  rw [gc, gm]
  unfold ghostVal
  rw [aiMarkMine_safes, aiMarkMine_mines]
  have hcells : (nb \ st.identified_safe_cells) \ insert c st.identified_mines =
      ((nb \ st.identified_safe_cells) \ st.identified_mines) \ {c} := by
    ext x
    simp only [Finset.mem_sdiff, Finset.mem_insert, Finset.mem_singleton]
    tauto
  rw [hcells]
  by_cases hm : c ∈ st.identified_mines
  · rw [Finset.insert_eq_self.mpr hm]
    have hni : ¬ c ∈ (nb \ st.identified_safe_cells) \ st.identified_mines := by
      simp only [Finset.mem_sdiff]
      tauto
    rw [if_neg hni]
    simp
  · by_cases hn : c ∈ nb \ st.identified_safe_cells
    · have hins : (nb \ st.identified_safe_cells) ∩ insert c st.identified_mines =
          insert c ((nb \ st.identified_safe_cells) ∩ st.identified_mines) := by
        ext x
        simp only [Finset.mem_inter, Finset.mem_insert]
        constructor
        · rintro ⟨h1, h2 | h2⟩
          · exact Or.inl h2
          · exact Or.inr ⟨h1, h2⟩
        · rintro (rfl | ⟨h1, h2⟩)
          · exact ⟨hn, Or.inl rfl⟩
          · exact ⟨h1, Or.inr h2⟩
      have hnotin : ¬ c ∈ (nb \ st.identified_safe_cells) ∩ st.identified_mines := by
        simp only [Finset.mem_inter]
        tauto
      have hpos : c ∈ (nb \ st.identified_safe_cells) \ st.identified_mines := by
        simp only [Finset.mem_sdiff]
        exact ⟨Finset.mem_sdiff.mp hn, hm⟩
      rw [hins, Finset.card_insert_of_not_mem hnotin, if_pos hpos]
      have : ((((nb \ st.identified_safe_cells) ∩ st.identified_mines).card + 1 : ℕ) : ℤ) =
          (((nb \ st.identified_safe_cells) ∩ st.identified_mines).card : ℤ) + 1 := by
        push_cast
        ring
      rw [this]
      have : k - ((((nb \ st.identified_safe_cells) ∩ st.identified_mines).card : ℤ) + 1) =
          k - (((nb \ st.identified_safe_cells) ∩ st.identified_mines).card : ℤ) - 1 := by
        ring
      rw [this]
    · have hins : (nb \ st.identified_safe_cells) ∩ insert c st.identified_mines =
          (nb \ st.identified_safe_cells) ∩ st.identified_mines := by
        ext x
        simp only [Finset.mem_inter, Finset.mem_insert]
        constructor
        · rintro ⟨h1, h2 | h2⟩
          · exact absurd (h2 ▸ h1) hn
          · exact ⟨h1, h2⟩
        · rintro ⟨h1, h2⟩
          exact ⟨h1, Or.inr h2⟩
      have hni : ¬ c ∈ (nb \ st.identified_safe_cells) \ st.identified_mines := by
        simp only [Finset.mem_sdiff] at hn ⊢
        tauto
      rw [hins, if_neg hni]
      simp

/-- Marking a mine preserves the ghost-tracking invariant. -/
theorem GhostInv_aiMarkMine (nb : Finset Cell) (k : ℤ) (st : AIState) (c : Cell)
    (h : GhostInv nb k st) : GhostInv nb k (aiMarkMine st c) := by
  rcases h with hmem | hemp
  · refine Or.inl ?_
    rw [ghostVal_aiMarkMine nb k st c, aiMarkMine_kb]
    exact List.mem_map.mpr ⟨_, hmem, rfl⟩
  · refine Or.inr ?_
    rw [ghostVal_aiMarkMine nb k st c, markMine_val]
    show (ghostVal nb k st).cell_positions \ {c} = ∅
    rw [hemp]
    exact Finset.empty_sdiff _

theorem foldl_safe_mines (cs : List Cell) :
    ∀ st : AIState, (cs.foldl aiMarkSafe st).identified_mines = st.identified_mines := by
  induction cs with
  | nil => intro st; rfl
  | cons a cs ih => intro st; rw [List.foldl_cons, ih, aiMarkSafe_mines]

theorem foldl_safe_safes_mono (cs : List Cell) :
    ∀ st : AIState,
      st.identified_safe_cells ⊆ (cs.foldl aiMarkSafe st).identified_safe_cells := by
  induction cs with
  | nil => intro st; exact Finset.Subset.refl _
  | cons a cs ih =>
    intro st
    rw [List.foldl_cons]
    refine Finset.Subset.trans ?_ (ih (aiMarkSafe st a))
    rw [aiMarkSafe_safes]
    exact Finset.subset_insert _ _

theorem foldl_safe_grid (cs : List Cell) :
    ∀ st : AIState, (cs.foldl aiMarkSafe st).grid_size = st.grid_size := by
  induction cs with
  | nil => intro st; rfl
  | cons a cs ih => intro st; rw [List.foldl_cons, ih, aiMarkSafe_grid]

theorem foldl_mine_safes (cs : List Cell) :
    ∀ st : AIState,
      (cs.foldl aiMarkMine st).identified_safe_cells = st.identified_safe_cells := by
  induction cs with
  | nil => intro st; rfl
  | cons a cs ih => intro st; rw [List.foldl_cons, ih, aiMarkMine_safes]

theorem foldl_mine_grid (cs : List Cell) :
    ∀ st : AIState, (cs.foldl aiMarkMine st).grid_size = st.grid_size := by
  induction cs with
  | nil => intro st; rfl
  | cons a cs ih => intro st; rw [List.foldl_cons, ih, aiMarkMine_grid]

/-- Folding safe-marking over cells that are not identified mines preserves the
three structural invariants. -/
theorem DJG_foldl_safe (nb : Finset Cell) (k : ℤ) (cs : List Cell) :
    ∀ (st : AIState) (inf : Finset KnowledgeStatement),
      DisjointKB st → JInv st inf → GhostInv nb k st →
      (∀ a ∈ cs, ¬ a ∈ st.identified_mines) →
      DisjointKB (cs.foldl aiMarkSafe st) ∧ JInv (cs.foldl aiMarkSafe st) inf ∧
        GhostInv nb k (cs.foldl aiMarkSafe st) := by
  induction cs with
  | nil => intro st inf hD hJ hG _; exact ⟨hD, hJ, hG⟩
  | cons a cs ih =>
    intro st inf hD hJ hG hm
    rw [List.foldl_cons]
    have ha := hm a (List.mem_cons_self a cs)
    refine ih (aiMarkSafe st a) inf (DisjointKB_aiMarkSafe st a hD)
      (JInv_aiMarkSafe st inf a hJ) (GhostInv_aiMarkSafe nb k st a ha hG) ?_
    intro b hb
    rw [aiMarkSafe_mines]
    exact hm b (List.mem_cons_of_mem a hb)

/-- Folding mine-marking preserves the three structural invariants. -/
theorem DJG_foldl_mine (nb : Finset Cell) (k : ℤ) (cs : List Cell) :
    ∀ (st : AIState) (inf : Finset KnowledgeStatement),
      DisjointKB st → JInv st inf → GhostInv nb k st →
      DisjointKB (cs.foldl aiMarkMine st) ∧ JInv (cs.foldl aiMarkMine st) inf ∧
        GhostInv nb k (cs.foldl aiMarkMine st) := by
  induction cs with
  | nil => intro st inf hD hJ hG; exact ⟨hD, hJ, hG⟩
  | cons a cs ih =>
    intro st inf hD hJ hG
    rw [List.foldl_cons]
    exact ih (aiMarkMine st a) inf (DisjointKB_aiMarkMine st a hD)
      (JInv_aiMarkMine st inf a hJ) (GhostInv_aiMarkMine nb k st a hG)

/-- The marking phase preserves the three structural invariants. -/
theorem markPhase_inv (nb : Finset Cell) (k : ℤ) (st : AIState)
    (inf : Finset KnowledgeStatement)
    (hD : DisjointKB st) (hJ : JInv st inf) (hG : GhostInv nb k st) :
    DisjointKB (markPhase st) ∧ JInv (markPhase st) inf ∧
      GhostInv nb k (markPhase st) := by
  unfold markPhase
  have hcond : ∀ a ∈ cellSort (collectSafes st.knowledge_base),
      ¬ a ∈ st.identified_mines := by
    intro a ha
    rw [mem_cellSort] at ha
    unfold collectSafes at ha
    obtain ⟨v, hv, hav⟩ :=
      ((mem_foldl_union _ _ ∅ a).mp ha).resolve_left (Finset.not_mem_empty a)
    exact fun hmem => (hD v hv a (known_safes_subset v hav)).1 hmem
  obtain ⟨hD1, hJ1, hG1⟩ := DJG_foldl_safe nb k _ st inf hD hJ hG hcond
  exact DJG_foldl_mine nb k _ _ inf hD1 hJ1 hG1

theorem markPhase_safes_mono (st : AIState) :
    st.identified_safe_cells ⊆ (markPhase st).identified_safe_cells := by
  unfold markPhase
  rw [foldl_mine_safes]
  exact foldl_safe_safes_mono _ st

theorem markPhase_grid (st : AIState) :
    (markPhase st).grid_size = st.grid_size := by
  unfold markPhase
  rw [foldl_mine_grid, foldl_safe_grid]

/-- The purge phase preserves the three structural invariants. -/
theorem purgePhase_inv (nb : Finset Cell) (k : ℤ) (st : AIState)
    (inf : Finset KnowledgeStatement)
    (hD : DisjointKB st) (hJ : JInv st inf) (hG : GhostInv nb k st) :
    DisjointKB (purgePhase st) ∧ JInv (purgePhase st) inf ∧
      GhostInv nb k (purgePhase st) := by
  refine ⟨?_, ?_, ?_⟩
  · intro v hv x hx
    exact hD v ((purgeList_mem_iff _ v).mp hv).1 x hx
  · intro x hx
    rcases hJ x hx with hkb | htouch | hemp
    · by_cases he : x.cell_positions = ∅
      · exact Or.inr (Or.inr he)
      · exact Or.inl ((purgeList_mem_iff _ x).mpr ⟨hkb, he⟩)
    · exact Or.inr (Or.inl htouch)
    · exact Or.inr (Or.inr hemp)
  · rcases hG with hmem | hemp
    · by_cases he : (ghostVal nb k st).cell_positions = ∅
      · exact Or.inr he
      · exact Or.inl ((purgeList_mem_iff _ _).mpr ⟨hmem, he⟩)
    · exact Or.inr hemp

theorem passStep_fst (strat : Strategy) (st : AIState)
    (inf : Finset KnowledgeStatement) :
    (passStep strat st inf).1 =
      { purgePhase (markPhase st) with
        knowledge_base := (strat (purgePhase (markPhase st)).knowledge_base).1 ++
          novelOf strat (purgePhase (markPhase st)) inf } := rfl

theorem passStep_snd (strat : Strategy) (st : AIState)
    (inf : Finset KnowledgeStatement) :
    (passStep strat st inf).2.1 =
      inf ∪ (novelOf strat (purgePhase (markPhase st)) inf).toFinset := rfl

theorem passStep_flag (strat : Strategy) (st : AIState)
    (inf : Finset KnowledgeStatement) :
    (passStep strat st inf).2.2 =
      ((if collectSafes st.knowledge_base = ∅ ∧ collectMines st.knowledge_base = ∅
          then false else true) ||
        (if novelOf strat (purgePhase (markPhase st)) inf = [] then false
          else true)) := rfl

/-- A full pass preserves the loop invariant (for a store-preserving strategy
whose inferences only mention store cells), never shrinks the identified safe
set, and keeps the grid size. -/
theorem CallInv_passStep (strat : Strategy)
    (hst : ∀ kb, (strat kb).1 = kb)
    (hcl : ∀ kb, ∀ s ∈ (strat kb).2, s.cell_positions ⊆ kbCells kb)
    (nb : Finset Cell) (k : ℤ) (c : Cell) (st : AIState)
    (inf : Finset KnowledgeStatement) (h : CallInv nb k c st inf) :
    CallInv nb k c (passStep strat st inf).1 (passStep strat st inf).2.1 ∧
      (passStep strat st inf).1.grid_size = st.grid_size := by
  obtain ⟨hD, hJ, hG, hc⟩ := h
  obtain ⟨hD1, hJ1, hG1⟩ := markPhase_inv nb k st inf hD hJ hG
  obtain ⟨hD2, hJ2, hG2⟩ := purgePhase_inv nb k (markPhase st) inf hD1 hJ1 hG1
  rw [passStep_fst, passStep_snd]
  have hmemnv : ∀ v ∈ novelOf strat (purgePhase (markPhase st)) inf,
      v ∈ (strat (purgePhase (markPhase st)).knowledge_base).2 := by
    intro v hv
    exact (List.mem_filter.mp hv).1
  refine ⟨⟨?_, ?_, ?_, ?_⟩, ?_⟩
  · -- separation
    intro v hv x hx
    show ¬ x ∈ (purgePhase (markPhase st)).identified_mines ∧
      ¬ x ∈ (purgePhase (markPhase st)).identified_safe_cells
    rw [hst] at hv
    rcases List.mem_append.mp hv with h1 | h1
    · exact hD2 v h1 x hx
    · have hsub := hcl _ v (hmemnv v h1)
      obtain ⟨w, hw, hxw⟩ := (mem_kbCells x _).mp (hsub hx)
      exact hD2 w hw x hxw
  · -- seen-set invariant
    intro x hx
    rcases Finset.mem_union.mp hx with h1 | h1
    · rcases hJ2 x h1 with hkb | htouch | hemp
      · refine Or.inl ?_
        show x ∈ (strat (purgePhase (markPhase st)).knowledge_base).1 ++ _
        rw [hst]
        exact List.mem_append_left _ hkb
      · exact Or.inr (Or.inl htouch)
      · exact Or.inr (Or.inr hemp)
    · refine Or.inl ?_
      show x ∈ (strat (purgePhase (markPhase st)).knowledge_base).1 ++ _
      rw [hst]
      exact List.mem_append_right _ (List.mem_toFinset.mp h1)
  · -- ghost tracking
    rcases hG2 with hmem | hemp
    · refine Or.inl ?_
      show ghostVal nb k (purgePhase (markPhase st)) ∈
        (strat (purgePhase (markPhase st)).knowledge_base).1 ++ _
      rw [hst]
      exact List.mem_append_left _ hmem
    · exact Or.inr hemp
  · -- the observed cell stays identified safe
    exact markPhase_safes_mono st hc
  · -- grid size
    exact markPhase_grid st

theorem keepFirsts_all_taken (l : List KnowledgeStatement) :
    ∀ taken : Finset KnowledgeStatement, (∀ x ∈ l, x ∈ taken) →
      keepFirsts taken l = [] := by
  induction l with
  | nil => intro taken _; rfl
  | cons s l ih =>
    intro taken h
    have hs := h s (List.mem_cons_self s l)
    rw [show keepFirsts taken (s :: l) = keepFirsts taken l by simp [keepFirsts, hs]]
    exact ih taken (fun x hx => h x (List.mem_cons_of_mem s hx))

/-- Walking a duplicate-free list and then a tail of already-seen values keeps
exactly the list. -/
theorem keepFirsts_absorb (l : List KnowledgeStatement) :
    ∀ (taken : Finset KnowledgeStatement) (l₂ : List KnowledgeStatement),
      l.Nodup → (∀ v ∈ l, ¬ v ∈ taken) → (∀ x ∈ l₂, x ∈ taken ∨ x ∈ l) →
      keepFirsts taken (l ++ l₂) = l := by
  induction l with
  | nil =>
    intro taken l₂ _ _ h₂
    rw [List.nil_append]
    exact keepFirsts_all_taken l₂ taken (fun x hx =>
      (h₂ x hx).resolve_right (fun hc => absurd hc (List.not_mem_nil x)))
  | cons s l ih =>
    intro taken l₂ hnd hfresh h₂
    have hs : ¬ s ∈ taken := hfresh s (List.mem_cons_self s l)
    rw [List.cons_append]
    rw [show keepFirsts taken (s :: (l ++ l₂)) =
        s :: keepFirsts (insert s taken) (l ++ l₂) by simp [keepFirsts, hs]]
    congr 1
    refine ih (insert s taken) l₂ (List.nodup_cons.mp hnd).2 ?_ ?_
    · intro v hv
      rw [Finset.mem_insert]
      rintro (h1 | h1)
      · exact (List.nodup_cons.mp hnd).1 (h1 ▸ hv)
      · exact hfresh v (List.mem_cons_of_mem s hv) h1
    · intro x hx
      rcases h₂ x hx with h1 | h1
      · exact Or.inl (Finset.mem_insert_of_mem h1)
      · rcases List.mem_cons.mp h1 with h2 | h2
        · exact Or.inl (by rw [h2]; exact Finset.mem_insert_self s taken)
        · exact Or.inr h2

/-- Purging a clean store followed by redundant statements (each empty or
already a member) returns exactly the clean store. -/
theorem purge_append_absorbed (l l₂ : List KnowledgeStatement) (hc : CleanKB l)
    (h₂ : ∀ x ∈ l₂, x.cell_positions = ∅ ∨ x ∈ l) :
    (purgeList (l ++ l₂)).1 = l := by
  rw [purgeList_eq_spec, purgeSpec_list_eq_keepFirsts]
  have hfl : (l ++ l₂).filter (fun s => ¬ s.cell_positions = ∅) =
      l ++ l₂.filter (fun s => ¬ s.cell_positions = ∅) := by
    rw [List.filter_append]
    congr 1
    refine List.filter_eq_self.mpr ?_
    intro a ha
    simp [hc.2 a ha]
  rw [hfl]
  refine keepFirsts_absorb l ∅ _ hc.1 (fun v _ => Finset.not_mem_empty v) ?_
  intro x hx
  have hne : ¬ x.cell_positions = ∅ := by
    have h' := (List.mem_filter.mp hx).2
    simpa using h'
  exact Or.inr ((h₂ x (List.mem_filter.mp hx).1).resolve_left hne)

/-- The purge always outputs a clean store. -/
theorem CleanKB_purge (kb : List KnowledgeStatement) :
    CleanKB (purgeList kb).1 := by
  constructor
  · rw [purgeList_eq_spec, purgeSpec_list_eq_keepFirsts]
    exact keepFirsts_nodup _ _
  · intro v hv
    exact ((purgeList_mem_iff kb v).mp hv).2

/-- Seeding the seen-set with the current store trivially satisfies the
seen-set invariant. -/
theorem JInv_toFinset (st : AIState) : JInv st st.knowledge_base.toFinset := by
  intro x hx
  exact Or.inl (List.mem_toFinset.mp hx)

/-- When the fixed-point loop terminates, the exit pass certifies the
post-call package: the loop invariant persists, the final store is purge
normal, certifies nothing, and the strategy output is entirely seen. -/
theorem PostCall_propLoop (strat : Strategy)
    (hst : ∀ kb, (strat kb).1 = kb)
    (hcl : ∀ kb, ∀ s ∈ (strat kb).2, s.cell_positions ⊆ kbCells kb)
    (nb : Finset Cell) (k : ℤ) (c : Cell) :
    ∀ (fuel : ℕ) (st : AIState) (inf : Finset KnowledgeStatement) (s₁ : AIState),
      propLoop strat fuel st inf = some s₁ → CallInv nb k c st inf →
      PostCall strat nb k c s₁ ∧ s₁.grid_size = st.grid_size := by
  intro fuel
  induction fuel with
  | zero =>
    intro st inf s₁ h _
    exact absurd (show (none : Option AIState) = some s₁ from h) (by simp)
  | succ f ih =>
    intro st inf s₁ h hInv
    have hstep : propLoop strat (f + 1) st inf =
        if (passStep strat st inf).2.2 then
          propLoop strat f (passStep strat st inf).1 (passStep strat st inf).2.1
        else some (passStep strat st inf).1 := rfl
    rw [hstep] at h
    by_cases hb : (passStep strat st inf).2.2 = true
    · rw [if_pos hb] at h
      obtain ⟨hInv', hgrid'⟩ := CallInv_passStep strat hst hcl nb k c st inf hInv
      obtain ⟨hpost, hg⟩ := ih _ _ s₁ h hInv'
      exact ⟨hpost, hg.trans hgrid'⟩
    · rw [if_neg hb] at h
      have hs₁ : s₁ = (passStep strat st inf).1 := (Option.some.inj h).symm
      have hflag : (passStep strat st inf).2.2 = false := by
        cases hvb : (passStep strat st inf).2.2
        · rfl
        · exact absurd hvb hb
      rw [passStep_flag] at hflag
      have hSM : collectSafes st.knowledge_base = ∅ ∧
          collectMines st.knowledge_base = ∅ := by
        by_cases hA : collectSafes st.knowledge_base = ∅ ∧
            collectMines st.knowledge_base = ∅
        · exact hA
        · rw [if_neg hA] at hflag
          simp at hflag
      obtain ⟨hS, hM⟩ := hSM
      have hNov : novelOf strat (purgePhase (markPhase st)) inf = [] := by
        by_cases hB : novelOf strat (purgePhase (markPhase st)) inf = []
        · exact hB
        · rw [if_neg hB] at hflag
          simp at hflag
      have hmp : markPhase st = st := by
        unfold markPhase
        rw [hS, hM, cellSort_empty]
        rfl
      rw [hmp] at hNov
      have hstate : s₁ = purgePhase st := by
        rw [hs₁, passStep_fst, hmp]
        refine AIState_eq_of_components rfl rfl rfl rfl rfl ?_
        show (strat (purgePhase st).knowledge_base).1 ++
          novelOf strat (purgePhase st) inf = (purgePhase st).knowledge_base
        rw [hNov, hst, List.append_nil]
      obtain ⟨hD, hJ, hG, hc⟩ := hInv
      obtain ⟨hD2, hJ2, hG2⟩ := purgePhase_inv nb k st inf hD hJ hG
      constructor
      · refine ⟨inf, ?_, ?_, ?_, ?_⟩
        · rw [hstate]
          exact ⟨hD2, hJ2, hG2, hc⟩
        · rw [hstate]
          exact CleanKB_purge _
        · intro v hv
          rw [hstate] at hv
          have hvkb := ((purgeList_mem_iff _ v).mp hv).1
          exact ⟨(collectSafes_eq_empty _).mp hS v hvkb,
            (collectMines_eq_empty _).mp hM v hvkb⟩
        · intro x hx
          rw [hstate] at hx
          unfold novelOf at hNov
          have hmem := List.filter_eq_nil.mp hNov x hx
          simpa using hmem
      · rw [hstate]
        rfl

/-- `add_knowledge` is the pre-loop bookkeeping followed by the fixed-point
loop seeded with the store. -/
theorem add_knowledge_eq_preIngest (strat : Strategy) (fuel : ℕ) (st : AIState)
    (c : Cell) (k : ℤ) :
    add_knowledge strat fuel st c k =
      propLoop strat fuel (preIngest st c k)
        (preIngest st c k).knowledge_base.toFinset := rfl

theorem preIngest_mines (st : AIState) (c : Cell) (k : ℤ) :
    (preIngest st c k).identified_mines = st.identified_mines := by
  simp only [preIngest]
  split_ifs with h
  · rw [aiMarkSafe_mines]
  · rw [aiMarkSafe_mines]

theorem preIngest_safes (st : AIState) (c : Cell) (k : ℤ) :
    (preIngest st c k).identified_safe_cells =
      insert c st.identified_safe_cells := by
  simp only [preIngest]
  split_ifs with h
  · rw [aiMarkSafe_safes]
  · rw [aiMarkSafe_safes]

theorem preIngest_grid (st : AIState) (c : Cell) (k : ℤ) :
    (preIngest st c k).grid_size = st.grid_size := by
  simp only [preIngest]
  split_ifs with h
  · rw [aiMarkSafe_grid]
  · rw [aiMarkSafe_grid]

/-- The store after the pre-loop bookkeeping: every statement has the observed
cell stripped out, and the adjusted neighbourhood constraint — the ghost value
of the state that already counts `c` safe — is appended when non-empty. -/
theorem preIngest_kb (st : AIState) (c : Cell) (k : ℤ) :
    (preIngest st c k).knowledge_base =
      st.knowledge_base.map (fun s => s.mark_cell_as_safe c) ++
        (if ¬ (ghostVal (neighbourhood st.grid_size c) k
            { st with identified_safe_cells :=
                insert c st.identified_safe_cells }).cell_positions = ∅
         then [ghostVal (neighbourhood st.grid_size c) k
            { st with identified_safe_cells :=
                insert c st.identified_safe_cells }]
         else []) := by
  simp only [preIngest, aiMarkSafe_kb, aiMarkSafe_grid, aiMarkSafe_safes,
    aiMarkSafe_mines]
  by_cases h : ¬ ((neighbourhood st.grid_size c \
      insert c st.identified_safe_cells) \ st.identified_mines) = ∅
  · rw [if_pos h, if_pos (show ¬ (ghostVal (neighbourhood st.grid_size c) k
      { st with identified_safe_cells :=
          insert c st.identified_safe_cells }).cell_positions = ∅ from h)]
    rfl
  · rw [if_neg h, if_neg (show ¬ ¬ (ghostVal (neighbourhood st.grid_size c) k
      { st with identified_safe_cells :=
          insert c st.identified_safe_cells }).cell_positions = ∅ from h)]
    rw [aiMarkSafe_kb, List.append_nil]

/-- A completed `add_knowledge` call from a state satisfying the separation
invariant establishes the full post-call package. -/
theorem add_knowledge_post (strat : Strategy)
    (hst : ∀ kb, (strat kb).1 = kb)
    (hcl : ∀ kb, ∀ s ∈ (strat kb).2, s.cell_positions ⊆ kbCells kb)
    (s₀ : AIState) (c : Cell) (k : ℤ) (fuel : ℕ) (s₁ : AIState)
    (hA : DisjointKB s₀)
    (h1 : add_knowledge strat fuel s₀ c k = some s₁) :
    PostCall strat (neighbourhood s₀.grid_size c) k c s₁ ∧
      s₁.grid_size = s₀.grid_size := by
  rw [add_knowledge_eq_preIngest] at h1
  have hInv : CallInv (neighbourhood s₀.grid_size c) k c (preIngest s₀ c k)
      (preIngest s₀ c k).knowledge_base.toFinset := by
    refine ⟨?_, JInv_toFinset _, ?_, ?_⟩
    · -- separation after the pre-loop bookkeeping
      intro v hv x hx
      rw [preIngest_kb] at hv
      show ¬ x ∈ (preIngest s₀ c k).identified_mines ∧
        ¬ x ∈ (preIngest s₀ c k).identified_safe_cells
      rw [preIngest_mines, preIngest_safes]
      rcases List.mem_append.mp hv with h1' | h1'
      · obtain ⟨w, hw, rfl⟩ := List.mem_map.mp h1'
        rw [markSafe_val] at hx
        simp only [Finset.mem_sdiff, Finset.mem_singleton] at hx
        constructor
        · exact (hA w hw x hx.1).1
        · rw [Finset.mem_insert]
          rintro (h2 | h2)
          · exact hx.2 h2
          · exact (hA w hw x hx.1).2 h2
      · by_cases hcnd : ¬ (ghostVal (neighbourhood s₀.grid_size c) k
            { s₀ with identified_safe_cells :=
                insert c s₀.identified_safe_cells }).cell_positions = ∅
        · rw [if_pos hcnd] at h1'
          rw [List.mem_singleton.mp h1'] at hx
          have hx' : x ∈ (neighbourhood s₀.grid_size c \
              insert c s₀.identified_safe_cells) \ s₀.identified_mines := hx
          simp only [Finset.mem_sdiff, Finset.mem_insert] at hx'
          refine ⟨hx'.2, ?_⟩
          rw [Finset.mem_insert]
          exact hx'.1.2
        · rw [if_neg hcnd] at h1'
          exact absurd h1' (List.not_mem_nil _)
    · -- ghost tracking at loop entry
      have hgv : ghostVal (neighbourhood s₀.grid_size c) k (preIngest s₀ c k) =
          ghostVal (neighbourhood s₀.grid_size c) k
            { s₀ with identified_safe_cells :=
                insert c s₀.identified_safe_cells } := by
        unfold ghostVal
        rw [preIngest_safes, preIngest_mines]
      by_cases hcnd : ¬ (ghostVal (neighbourhood s₀.grid_size c) k
          { s₀ with identified_safe_cells :=
              insert c s₀.identified_safe_cells }).cell_positions = ∅
      · refine Or.inl ?_
        rw [hgv, preIngest_kb, if_pos hcnd]
        exact List.mem_append_right _ (List.mem_singleton.mpr rfl)
      · refine Or.inr ?_
        rw [hgv]
        exact not_not.mp hcnd
    · rw [preIngest_safes]
      exact Finset.mem_insert_self c _
  obtain ⟨hpost, hg⟩ :=
    PostCall_propLoop strat hst hcl (neighbourhood s₀.grid_size c) k c
      fuel (preIngest s₀ c k) (preIngest s₀ c k).knowledge_base.toFinset s₁
      h1 hInv
  exact ⟨hpost, hg.trans (preIngest_grid s₀ c k)⟩

/-- Core of the re-ingestion argument: starting from a state whose store is a
clean base followed by redundant statements, with nothing certified and the
strategy output either already stored or empty-celled, the loop stabilises in
at most two passes without touching the identified sets and with the store
restored to the clean base. -/
theorem reingest_loop (strat : Strategy) (hst : ∀ kb, (strat kb).1 = kb)
    (st : AIState) (kb₁ L : List KnowledgeStatement)
    (hkb : st.knowledge_base = kb₁ ++ L)
    (hclean : CleanKB kb₁)
    (hknowns : ∀ v ∈ kb₁, v.known_safes = ∅ ∧ v.known_mines = ∅)
    (hL : ∀ x ∈ L, x ∈ kb₁)
    (hO : ∀ x ∈ (strat kb₁).2, x ∈ kb₁ ∨ x.cell_positions = ∅) :
    ∃ s₂ : AIState, propLoop strat 2 st st.knowledge_base.toFinset = some s₂ ∧
      s₂.identified_mines = st.identified_mines ∧
      s₂.identified_safe_cells = st.identified_safe_cells ∧
      s₂.knowledge_base = kb₁ := by
  have hmemkb : ∀ v ∈ st.knowledge_base, v ∈ kb₁ := by
    intro v hv
    rw [hkb] at hv
    rcases List.mem_append.mp hv with h | h
    · exact h
    · exact hL v h
  have hS : collectSafes st.knowledge_base = ∅ :=
    (collectSafes_eq_empty _).mpr (fun v hv => (hknowns v (hmemkb v hv)).1)
  have hM : collectMines st.knowledge_base = ∅ :=
    (collectMines_eq_empty _).mpr (fun v hv => (hknowns v (hmemkb v hv)).2)
  have hpurge : (purgeList st.knowledge_base).1 = kb₁ := by
    rw [hkb]
    exact purge_append_absorbed kb₁ L hclean (fun x hx => Or.inr (hL x hx))
  have hpass1 := passStep_no_marking strat st st.knowledge_base.toFinset hS hM
  rw [hpurge, hst] at hpass1
  have hnv_empty : ∀ x ∈ (strat kb₁).2.filter
      (fun s => ¬ s ∈ st.knowledge_base.toFinset), x.cell_positions = ∅ := by
    intro x hx
    have hxmem := (List.mem_filter.mp hx).1
    have hxnotinf : ¬ x ∈ st.knowledge_base.toFinset := by
      have h' := (List.mem_filter.mp hx).2
      simpa using h'
    rcases hO x hxmem with h | h
    · refine absurd ?_ hxnotinf
      rw [hkb]
      exact List.mem_toFinset.mpr (List.mem_append_left L h)
    · exact h
  by_cases hn : (strat kb₁).2.filter
      (fun s => ¬ s ∈ st.knowledge_base.toFinset) = []
  · -- the first pass already reports no change
    refine ⟨{ st with knowledge_base := kb₁ ++ (strat kb₁).2.filter (fun s =>
      ¬ s ∈ st.knowledge_base.toFinset) }, ?_, rfl, rfl, by
      rw [hn, List.append_nil]⟩
    have hstep : propLoop strat 2 st st.knowledge_base.toFinset =
        if (passStep strat st st.knowledge_base.toFinset).2.2 then
          propLoop strat 1 (passStep strat st st.knowledge_base.toFinset).1
            (passStep strat st st.knowledge_base.toFinset).2.1
        else some (passStep strat st st.knowledge_base.toFinset).1 := rfl
    rw [hstep, hpass1, hn]
    simp
  · -- a second pass is needed and stabilises
    have hS1 : collectSafes (kb₁ ++ (strat kb₁).2.filter
        (fun s => ¬ s ∈ st.knowledge_base.toFinset)) = ∅ := by
      refine (collectSafes_eq_empty _).mpr ?_
      intro v hv
      rcases List.mem_append.mp hv with h | h
      · exact (hknowns v h).1
      · exact (empty_knowns v (hnv_empty v h)).1
    have hM1 : collectMines (kb₁ ++ (strat kb₁).2.filter
        (fun s => ¬ s ∈ st.knowledge_base.toFinset)) = ∅ := by
      refine (collectMines_eq_empty _).mpr ?_
      intro v hv
      rcases List.mem_append.mp hv with h | h
      · exact (hknowns v h).2
      · exact (empty_knowns v (hnv_empty v h)).2
    have hpurge1 : (purgeList (kb₁ ++ (strat kb₁).2.filter
        (fun s => ¬ s ∈ st.knowledge_base.toFinset))).1 = kb₁ :=
      purge_append_absorbed kb₁ _ hclean (fun x hx => Or.inl (hnv_empty x hx))
    have hpass2 := passStep_no_marking strat
      ({ st with knowledge_base := kb₁ ++ (strat kb₁).2.filter (fun s =>
        ¬ s ∈ st.knowledge_base.toFinset) })
      (st.knowledge_base.toFinset ∪ ((strat kb₁).2.filter
          (fun s => ¬ s ∈ st.knowledge_base.toFinset)).toFinset) hS1 hM1
    rw [hpurge1, hst] at hpass2
    have hnv2 : (strat kb₁).2.filter (fun s =>
        ¬ s ∈ (st.knowledge_base.toFinset ∪ ((strat kb₁).2.filter
          (fun s => ¬ s ∈ st.knowledge_base.toFinset)).toFinset)) = [] := by
      refine List.filter_eq_nil.mpr ?_
      intro a ha
      have hmem : a ∈ st.knowledge_base.toFinset ∪ ((strat kb₁).2.filter
          (fun s => ¬ s ∈ st.knowledge_base.toFinset)).toFinset := by
        by_cases hai : a ∈ st.knowledge_base.toFinset
        · exact Finset.mem_union_left _ hai
        · refine Finset.mem_union_right _ (List.mem_toFinset.mpr ?_)
          refine List.mem_filter.mpr ⟨ha, ?_⟩
          simpa using hai
      simp only [decide_eq_true_eq]
      exact not_not_intro hmem
    rw [hnv2] at hpass2
    refine ⟨{ st with knowledge_base := kb₁ ++ [] }, ?_, rfl, rfl,
      List.append_nil kb₁⟩
    have hstep : propLoop strat 2 st st.knowledge_base.toFinset =
        if (passStep strat st st.knowledge_base.toFinset).2.2 then
          propLoop strat 1 (passStep strat st st.knowledge_base.toFinset).1
            (passStep strat st st.knowledge_base.toFinset).2.1
        else some (passStep strat st st.knowledge_base.toFinset).1 := rfl
    rw [hstep, hpass1, if_neg hn]
    have hstep1 : ∀ (a : AIState) (i : Finset KnowledgeStatement),
        propLoop strat 1 a i =
          if (passStep strat a i).2.2 then
            propLoop strat 0 (passStep strat a i).1 (passStep strat a i).2.1
          else some (passStep strat a i).1 := fun a i => rfl
    show propLoop strat 1
      ({ st with knowledge_base := kb₁ ++ (strat kb₁).2.filter (fun s =>
        ¬ s ∈ st.knowledge_base.toFinset) })
      (st.knowledge_base.toFinset ∪ ((strat kb₁).2.filter
          (fun s => ¬ s ∈ st.knowledge_base.toFinset)).toFinset) =
      some { st with knowledge_base := kb₁ ++ [] }
    rw [hstep1, hpass2]
    simp

/-- Re-ingesting the same observation from a state satisfying the post-call
package succeeds within two passes and leaves the identified sets and the
store unchanged. -/
theorem reingest_of_PostCall (strat : Strategy)
    (hst : ∀ kb, (strat kb).1 = kb)
    (hcl : ∀ kb, ∀ s ∈ (strat kb).2, s.cell_positions ⊆ kbCells kb)
    (c : Cell) (k : ℤ) (s₁ : AIState)
    (hpost : PostCall strat (neighbourhood s₁.grid_size c) k c s₁) :
    ∃ s₂ : AIState, add_knowledge strat 2 s₁ c k = some s₂ ∧
      s₂.identified_mines = s₁.identified_mines ∧
      s₂.identified_safe_cells = s₁.identified_safe_cells ∧
      s₂.knowledge_base = s₁.knowledge_base := by
  obtain ⟨inf₁, ⟨hD, hJ, hG, hcsafe⟩, hclean, hknowns, hOinf⟩ := hpost
  have hO : ∀ x ∈ (strat s₁.knowledge_base).2,
      x ∈ s₁.knowledge_base ∨ x.cell_positions = ∅ := by
    intro x hx
    rcases hJ x (hOinf x hx) with h | ⟨cl, hclmem, hid⟩ | h
    · exact Or.inl h
    · have hsub := hcl s₁.knowledge_base x hx
      obtain ⟨w, hw, hclw⟩ := (mem_kbCells cl _).mp (hsub hclmem)
      rcases hid with h1 | h1
      · exact absurd h1 (hD w hw cl hclw).1
      · exact absurd h1 (hD w hw cl hclw).2
    · exact Or.inr h
  have hkb2 : (preIngest s₁ c k).knowledge_base = s₁.knowledge_base ++
      (if ¬ (ghostVal (neighbourhood s₁.grid_size c) k s₁).cell_positions = ∅
       then [ghostVal (neighbourhood s₁.grid_size c) k s₁] else []) := by
    rw [preIngest_kb]
    have hP :
        ({ s₁ with identified_safe_cells := insert c s₁.identified_safe_cells } :
          AIState) = s₁ := by
      refine AIState_eq_of_components rfl rfl rfl ?_ rfl rfl
      show insert c s₁.identified_safe_cells = s₁.identified_safe_cells
      exact Finset.insert_eq_self.mpr hcsafe
    rw [hP]
    congr 1
    refine list_map_id_of _ _ ?_
    intro v hv
    unfold KnowledgeStatement.mark_cell_as_safe
    rw [if_neg (fun hmem => (hD v hv c hmem).2 hcsafe)]
  have hLmem : ∀ x ∈ (if ¬ (ghostVal (neighbourhood s₁.grid_size c) k
      s₁).cell_positions = ∅
      then [ghostVal (neighbourhood s₁.grid_size c) k s₁] else []),
      x ∈ s₁.knowledge_base := by
    intro x hx
    by_cases hcnd : ¬ (ghostVal (neighbourhood s₁.grid_size c) k
        s₁).cell_positions = ∅
    · rw [if_pos hcnd] at hx
      rw [List.mem_singleton.mp hx]
      rcases hG with h | h
      · exact h
      · exact absurd h hcnd
    · rw [if_neg hcnd] at hx
      exact absurd hx (List.not_mem_nil x)
  rw [add_knowledge_eq_preIngest]
  obtain ⟨s₂, hloop, hm, hs, hkb⟩ :=
    reingest_loop strat hst (preIngest s₁ c k) s₁.knowledge_base _ hkb2
      hclean hknowns hLmem hO
  refine ⟨s₂, hloop, ?_, ?_, hkb⟩
  · rw [hm, preIngest_mines]
  · rw [hs, preIngest_safes, Finset.insert_eq_self.mpr hcsafe]

/-- The brute-force strategy is well behaved: it hands the store back
unchanged, and each inference `B - A` only mentions cells of store
statements. -/
theorem bruteStrategy_good : GoodStrategy bruteStrategy := by
  constructor
  · intro kb
    rfl
  · intro kb s hs
    obtain ⟨a, ha, b, hb, hsub, rfl⟩ := (mem_bruteForceCore s kb).mp hs
    intro x hx
    have hxb : x ∈ b.cell_positions := (Finset.mem_sdiff.mp hx).1
    exact (mem_kbCells x kb).mpr ⟨b, hb, hxb⟩

/-- C1: idempotent re-ingestion (fixed point).  For any store-preserving
strategy whose inferences mention only store cells (the engine's strategies
qualify; the witness instantiates brute force), once `add_knowledge (c, k)`
returns a state `s₁` — starting from any state whose store does not mention
identified cells, such as a fresh solver — invoking propagation again by
re-ingesting the same `(c, k)` returns (two passes of fuel suffice) and leaves
`identified_mines`, `identified_safe_cells` and the knowledge base
unchanged. -/
theorem reingestion_fixed_point (strat : Strategy) (hgs : GoodStrategy strat)
    (s₀ : AIState) (c : Cell) (k : ℤ) (fuel : ℕ) (s₁ : AIState)
    (hA : DisjointKB s₀)
    (h1 : add_knowledge strat fuel s₀ c k = some s₁) :
    ∃ s₂ : AIState, add_knowledge strat 2 s₁ c k = some s₂ ∧
      s₂.identified_mines = s₁.identified_mines ∧
      s₂.identified_safe_cells = s₁.identified_safe_cells ∧
      s₂.knowledge_base = s₁.knowledge_base := by
  obtain ⟨hst, hcl⟩ := hgs
  obtain ⟨hpost, hg⟩ := add_knowledge_post strat hst hcl s₀ c k fuel s₁ hA h1
  rw [← hg] at hpost
  exact reingest_of_PostCall strat hst hcl c k s₁ hpost

/-- Witness for C1: on a 3×3 grid with the brute-force strategy, ingesting
`(0,0)` with count 5 from the fresh solver yields a concrete state, and
re-ingesting the same observation leaves the identified sets and the store of
that state unchanged. -/
theorem reingestion_fixed_point_witness :
    GoodStrategy bruteStrategy ∧
    DisjointKB (initState 3) ∧
    add_knowledge bruteStrategy 10 (initState 3) ((0 : ℤ), (0 : ℤ)) 5 =
      some (⟨3, {((0 : ℤ), (0 : ℤ))}, ∅, {((0 : ℤ), (0 : ℤ))},
        [((0 : ℤ), (0 : ℤ))],
        [⟨{((0 : ℤ), (1 : ℤ)), ((1 : ℤ), (0 : ℤ)), ((1 : ℤ), (1 : ℤ))}, 5⟩]⟩ :
          AIState) ∧
    ∃ s₂ : AIState,
      add_knowledge bruteStrategy 2
        (⟨3, {((0 : ℤ), (0 : ℤ))}, ∅, {((0 : ℤ), (0 : ℤ))},
          [((0 : ℤ), (0 : ℤ))],
          [⟨{((0 : ℤ), (1 : ℤ)), ((1 : ℤ), (0 : ℤ)), ((1 : ℤ), (1 : ℤ))}, 5⟩]⟩ :
            AIState) ((0 : ℤ), (0 : ℤ)) 5 = some s₂ ∧
      s₂.identified_mines = ∅ ∧
      s₂.identified_safe_cells = {((0 : ℤ), (0 : ℤ))} ∧
      s₂.knowledge_base =
        [⟨{((0 : ℤ), (1 : ℤ)), ((1 : ℤ), (0 : ℤ)), ((1 : ℤ), (1 : ℤ))}, 5⟩] :=
  ⟨bruteStrategy_good,
   fun v hv => absurd hv (List.not_mem_nil v),
   by decide,
   reingestion_fixed_point bruteStrategy bruteStrategy_good (initState 3)
     ((0 : ℤ), (0 : ℤ)) 5 10
     (⟨3, {((0 : ℤ), (0 : ℤ))}, ∅, {((0 : ℤ), (0 : ℤ))},
       [((0 : ℤ), (0 : ℤ))],
       [⟨{((0 : ℤ), (1 : ℤ)), ((1 : ℤ), (0 : ℤ)), ((1 : ℤ), (1 : ℤ))}, 5⟩]⟩ :
         AIState)
     (fun v hv => absurd hv (List.not_mem_nil v)) (by decide)⟩

end Minesweeper
